import Mathlib

/-!
Verification of the in-memory storage engine of a schema-validated record
store (Go sources: the `memory` storage engine, its schema validator,
partial-key index and the JSON persistence adapter).

Modelling conventions:
* Go strings are modelled as `List Char` (`Str`); Go's byte-based length
  and slicing coincide with the character-based ones on the ASCII data the
  engine manipulates.
* Go `map[string]T` values are modelled as association lists (`Map T`)
  with replace-on-insert semantics (`minsert`), first-match lookup
  (`mfind`) and key removal (`merase`).  Maps built by the engine always
  have duplicate-free key lists.
* Values produced by `encoding/json.Unmarshal` are modelled by `GoValue`:
  strings, numbers (JSON numbers all arrive as `float64`; they are
  modelled as rationals, with `q.den = 1` playing the role of the
  whole-number test `v == float64(int64(v))`), booleans, null, and
  composite values whose payloads are never inspected by any modelled
  operation and are therefore elided.
* A JSON document string is modelled as `JsonStr`: the raw text paired
  with the result of parsing it (`none` when `json.Unmarshal` fails),
  which abstracts the byte-level JSON codec boundary.
-/

abbrev Str : Type := List Char

/-- Coercion from Lean string literals to the `List Char` string model. -/
def lit (s : String) : Str := s.data

abbrev Map (α : Type) : Type := List (Str × α)

/-- Lookup in a Go map: first matching key wins. -/
def mfind {α : Type} : Map α → Str → Option α
  | [], _ => none
  | (k, v) :: rest, key => if k = key then some v else mfind rest key

/-- Go map assignment `m[key] = v`: replace the existing entry or append. -/
def minsert {α : Type} : Map α → Str → α → Map α
  | [], key, v => [(key, v)]
  | (k, w) :: rest, key, v =>
      if k = key then (k, v) :: rest else (k, w) :: minsert rest key v

/-- Go map deletion `delete(m, key)`. -/
def merase {α : Type} : Map α → Str → Map α
  | [], _ => []
  | (k, w) :: rest, key =>
      if k = key then merase rest key else (k, w) :: merase rest key

/-- The key list of a map is duplicate-free (true of every map the engine
builds, since they grow only through `minsert`). -/
def NoDupKeys {α : Type} (m : Map α) : Prop := (m.map Prod.fst).Nodup

instance {α : Type} (m : Map α) : Decidable (NoDupKeys m) :=
  inferInstanceAs (Decidable (List.Nodup _))

/-- Values as produced by `encoding/json.Unmarshal` into `interface{}`.
JSON numbers always arrive as `float64`; they are modelled as rationals
(`q.den = 1` models the whole-number test `v == float64(int64(v))`,
with the mathematical integers standing in for the `int64` range).
Payloads of nested arrays/objects are never inspected by any modelled
operation and are therefore elided. -/
inductive GoValue : Type where
  | str : Str → GoValue
  | num : ℚ → GoValue
  | bool : Bool → GoValue
  | null : GoValue
  | arrv : GoValue
  | objv : GoValue
deriving DecidableEq

/-- A parsed JSON object (`map[string]interface{}`). -/
abbrev GoObj : Type := Map GoValue

/-- A JSON document string: the raw text together with what
`json.Unmarshal` yields on it (`none` when parsing fails).  This pairs a
string with its parse so that the byte-level JSON codec stays an opaque,
deterministic boundary. -/
structure JsonStr : Type where
  raw : Str
  parsed : Option GoObj
deriving DecidableEq

/-- Decimal digits of a natural number. -/
def natDigits (n : ℕ) : Str := Nat.toDigits 10 n

/-- Rendering of an integer. -/
def intRender (i : ℤ) : Str :=
  if i < 0 then '-' :: natDigits i.natAbs else natDigits i.natAbs

/-- Models `fmt.Sprintf("%v", value)`, the default textual representation.
The rendering of non-whole numbers and of composite values is abbreviated
(no proved property inspects those texts). -/
def goFormat : GoValue → Str
  | .str s => s
  | .num q => if q.den = 1 then intRender q.num
              else intRender q.num ++ '/' :: natDigits q.den
  | .bool b => if b then lit "true" else lit "false"
  | .null => lit "<nil>"
  | .arrv => lit "[]"
  | .objv => lit "map[]"

/-- Ordering used to model `encoding/json`'s sorted map keys. -/
def strLe (a b : Str) : Bool :=
  match a, b with
  | [], _ => true
  | _ :: _, [] => false
  | x :: xs, y :: ys => if x.val < y.val then true
                        else if y.val < x.val then false
                        else strLe xs ys

/-- Insertion sort used by the marshaller model. -/
def insortBy {α : Type} (le : α → α → Bool) : α → List α → List α
  | x, [] => [x]
  | x, y :: ys => if le x y then x :: y :: ys else y :: insortBy le x ys

def sortBy {α : Type} (le : α → α → Bool) : List α → List α
  | [] => []
  | x :: xs => insortBy le x (sortBy le xs)

/-- Models `json.Marshal` of a parsed object: keys are emitted in sorted
order, as Go does.  The byte-level JSON text is opaque at the persistence
boundary, so the renderer is a stand-in encoding; no proved property
inspects its exact text. -/
def goMarshal (o : GoObj) : Str :=
  '<' :: ((sortBy (fun a b => strLe a.1 b.1) o).foldl
    (fun acc kv => acc ++ kv.1 ++ '=' :: goFormat kv.2 ++ [';']) []) ++ ['>']

/-- Field-level validation errors (`validateFieldType`). -/
inductive FErr : Type where
  | mismatch : Str → GoValue → FErr
  | notWhole : ℚ → FErr
deriving DecidableEq

/-- Errors of `validateRecordAgainstSchema`. -/
inductive VErr : Type where
  | schemaNotFound : Str → VErr
  | invalidJson : VErr
  | fieldFail : Str → FErr → VErr
deriving DecidableEq

/-- Engine-level errors.  The Go code returns formatted error strings;
they are modelled as structured errors carrying the same data. -/
inductive GErr : Type where
  | schemaNotFound : Str → GErr
  | invalidJson : GErr
  | validationFailed : VErr → GErr
  | keyExtractionFailed : Str → GErr
  | recordNotFound : Str → Str → GErr
  | ambiguousKey : Str → Str → List Str → GErr
  | ioError : GErr
deriving DecidableEq

/-- `validateFieldType` validates the value against the expected type
(switch on the type name; the `int`/`int32`/`int64` cases of the Go
switch are unreachable for JSON-decoded values and have no model
counterpart). -/
def validateFieldType (value : GoValue) (expectedType : Str) : Except FErr Unit :=
  if expectedType = lit "string" then
    match value with
    | .str _ => .ok ()
    | _ => .error (.mismatch expectedType value)
  else if expectedType = lit "int" ∨ expectedType = lit "integer" then
    match value with
    | .num q => if q.den = 1 then .ok () else .error (.notWhole q)
    | _ => .error (.mismatch expectedType value)
  else if expectedType = lit "float" ∨ expectedType = lit "double" then
    match value with
    | .num _ => .ok ()
    | _ => .error (.mismatch expectedType value)
  else if expectedType = lit "bool" ∨ expectedType = lit "boolean" then
    match value with
    | .bool _ => .ok ()
    | _ => .error (.mismatch expectedType value)
  else
    -- `object`/`json` and unknown types accept any value
    .ok ()

/-- Split a string at every occurrence of a character, like
`strings.Split` with a one-character separator. -/
def splitOnChar (c : Char) : Str → List Str
  | [] => [[]]
  | x :: xs =>
      match splitOnChar c xs with
      | [] => if x = c then [[], []] else [[x]]
      | y :: ys => if x = c then [] :: y :: ys else (x :: y) :: ys

/-- Models `strings.TrimSpace`. -/
def trimStr (s : Str) : Str :=
  ((s.dropWhile Char.isWhitespace).reverse.dropWhile Char.isWhitespace).reverse

/-- `parseSchemaFields` parses the schema definition string into a map of
field names to type names: whitespace-separated `field:type` tokens,
malformed tokens silently skipped. -/
def parseSchemaFields (schemaDef : Str) : Map Str :=
  (splitOnChar ' ' schemaDef).foldl
    (fun fields part =>
      let part := trimStr part
      if part = [] then fields
      else
        match splitOnChar ':' part with
        | [a, b] => minsert fields (trimStr a) (trimStr b)
        | _ => fields)
    []

/-- The field-iteration loop of `validateRecordAgainstSchema`: for each
schema field present in the record, check the declared type; skip absent
fields; fail on the first mismatch. -/
def validateFields : Map Str → GoObj → Except VErr Unit
  | [], _ => .ok ()
  | (f, t) :: rest, record =>
      match mfind record f with
      | none => validateFields rest record
      | some v =>
          match validateFieldType v t with
          | .error e => .error (.fieldFail f e)
          | .ok _ => validateFields rest record

/-- `validateRecordAgainstSchema` validates a record (a JSON document
string) against a schema definition looked up by name. -/
def validateRecordAgainstSchema (schemas : Map Str) (schemaName : Str)
    (recordData : JsonStr) : Except VErr Unit :=
  match mfind schemas schemaName with
  | none => .error (.schemaNotFound schemaName)
  | some schemaDef =>
      match recordData.parsed with
      | none => .error .invalidJson
      | some record => validateFields (parseSchemaFields schemaDef) record

/-- The reserved schema-name key under which schema definitions are
persisted, skipped by the index rebuild. -/
def schemasKey : Str := lit "__schemas__"

/-- `getPartialKey` returns the first 5 characters of the key (or the
whole key when it has 5 or fewer). -/
def getPartialKey (fullKey : Str) : Str :=
  if fullKey.length ≤ 5 then fullKey else fullKey.take 5

/-- The in-memory storage state: records (schema → key → stored JSON
document), schema definitions, and the partial-key index (schema →
5-character partial key → list of full keys). -/
structure Storage : Type where
  records : Map (Map JsonStr)
  schemas : Map Str
  partialKeys : Map (Map (List Str))
deriving DecidableEq

/-- The empty state a fresh store starts from. -/
def emptyStorage : Storage := ⟨[], [], []⟩

/-- Replace the records component of the state. -/
def setRecords (s : Storage) (r : Map (Map JsonStr)) : Storage :=
  { s with records := r }

/-- `updatePartialKeyIndex` adds (`add = true`) or removes (`add = false`)
a full key from the bucket of its 5-character partial key, creating the
schema's index map when absent; removal always writes the filtered
bucket back, so it can leave an empty bucket behind. -/
def updatePartialKeyIndex (s : Storage) (schemaName fullKey : Str)
    (add : Bool) : Storage :=
  let idx := (mfind s.partialKeys schemaName).getD []
  let pk := getPartialKey fullKey
  if add then
    let bucket := (mfind idx pk).getD []
    let bucket' := if fullKey ∈ bucket then bucket else bucket ++ [fullKey]
    { s with partialKeys := minsert s.partialKeys schemaName (minsert idx pk bucket') }
  else
    let bucket := (mfind idx pk).getD []
    let idx' := minsert idx pk (bucket.filter (fun key => ¬(key = fullKey)))
    { s with partialKeys := minsert s.partialKeys schemaName idx' }

/-- Inner loop of `rebuildPartialKeyIndex`: group the keys of one
schema's record map by their partial key. -/
def buildSchemaIndex (schemaRecords : Map JsonStr) : Map (List Str) :=
  schemaRecords.foldl
    (fun bidx kv =>
      let pk := getPartialKey kv.1
      minsert bidx pk ((mfind bidx pk).getD [] ++ [kv.1]))
    []

/-- `rebuildPartialKeyIndex` rebuilds the partial-key index wholesale from
the current records, skipping the reserved `__schemas__` entry. -/
def rebuildPartialKeyIndex (s : Storage) : Storage :=
  let pks :=
    s.records.foldl
      (fun acc srm =>
        if srm.1 = schemasKey then acc
        else minsert acc srm.1 (buildSchemaIndex srm.2))
      []
  { s with partialKeys := pks }

/-- `extractKeyFromRecord` extracts a key from the record data: the raw
input when JSON parsing fails; else the value of `id`, `name` or `key`
in that order (non-strings stringified with `%v`); else the first field:
its value when textual, otherwise its name; else (no fields) the raw
input. -/
def extractKeyFromRecord (recordData : Str) (parsed : Option GoObj) : Str :=
  match parsed with
  | none => recordData
  | some record =>
      match mfind record (lit "id") with
      | some v => match v with | .str s => s | _ => goFormat v
      | none =>
          match mfind record (lit "name") with
          | some v => match v with | .str s => s | _ => goFormat v
          | none =>
              match mfind record (lit "key") with
              | some v => match v with | .str s => s | _ => goFormat v
              | none =>
                  match record with
                  | (k, v) :: _ => match v with | .str s => s | _ => k
                  | [] => recordData

/-- The fallback block of `AddRecord`: when the extracted key is empty or
equals the raw record data, retry with the values of `id`, `name`, `key`
stringified via `%v` (returning the incoming key when none is present). -/
def fallbackKey (record : GoObj) (key : Str) : Str :=
  match mfind record (lit "id") with
  | some v => goFormat v
  | none =>
      match mfind record (lit "name") with
      | some v => goFormat v
      | none =>
          match mfind record (lit "key") with
          | some v => goFormat v
          | none => key

/-- `AddRecord` adds a record to a schema: check the schema exists,
validate, derive the key (with the fallback block), store the record,
update the index, then flush.  The outcome of `saveToPersistent` at this
call is abstracted as the `flush` argument; the Go code returns it
directly after the in-memory mutation. -/
def AddRecord (s : Storage) (flush : Except GErr Unit) (schemaName : Str)
    (recordData : JsonStr) : Storage × Except GErr Unit :=
  match mfind s.schemas schemaName with
  | none => (s, .error (.schemaNotFound schemaName))
  | some _ =>
      match validateRecordAgainstSchema s.schemas schemaName recordData with
      | .error e => (s, .error (.validationFailed e))
      | .ok _ =>
          let key := extractKeyFromRecord recordData.raw recordData.parsed
          let key :=
            if key = [] ∨ key = recordData.raw then
              match recordData.parsed with
              | some record => fallbackKey record key
              | none => key
            else key
          if key = [] then (s, .error (.keyExtractionFailed recordData.raw))
          else
            let rm := (mfind s.records schemaName).getD []
            let s := { s with records := minsert s.records schemaName (minsert rm key recordData) }
            let s := updatePartialKeyIndex s schemaName key true
            (s, flush)

/-- `getRecordsByPartialKey` returns the full keys matching a partial
key: for queries of length at least 5, the bucket named by the first 5
characters filtered by literal prefix match; for shorter queries, a scan
over all buckets whose bucket key is prefix-comparable with the query,
again filtered by literal prefix match. -/
def getRecordsByPartialKey (s : Storage) (schemaName partialKey : Str) : List Str :=
  if partialKey = [] then []
  else if 5 ≤ partialKey.length then
    let lookupKey := partialKey.take 5
    match mfind s.partialKeys schemaName with
    | none => []
    | some schemaIndex =>
        match mfind schemaIndex lookupKey with
        | none => []
        | some keys => keys.filter (fun key => partialKey.isPrefixOf key)
  else
    match mfind s.partialKeys schemaName with
    | none => []
    | some schemaIndex =>
        schemaIndex.foldl
          (fun ms pkeys =>
            if partialKey.isPrefixOf pkeys.1 ∨ pkeys.1.isPrefixOf partialKey then
              ms ++ pkeys.2.filter (fun key => partialKey.isPrefixOf key)
            else ms)
          []

/-- `GetRecord` retrieves a record: exact key match first; otherwise a
partial-key lookup returning the unique match, an ambiguity error
listing the candidates, or not-found. -/
def GetRecord (s : Storage) (schemaName key : Str) : Except GErr JsonStr :=
  match mfind s.schemas schemaName with
  | none => .error (.schemaNotFound schemaName)
  | some _ =>
      match mfind ((mfind s.records schemaName).getD []) key with
      | some record => .ok record
      | none =>
          match getRecordsByPartialKey s schemaName key with
          | [fullKey] =>
              match mfind ((mfind s.records schemaName).getD []) fullKey with
              | some record => .ok record
              | none => .error (.recordNotFound key schemaName)
          | [] => .error (.recordNotFound key schemaName)
          | ms => .error (.ambiguousKey key schemaName ms)

/-- `DeleteRecord` removes a record by exact key: schema must exist, the
key must be literally present; then the record is deleted, the index
updated, and the state flushed (`flush` abstracts `saveToPersistent`). -/
def DeleteRecord (s : Storage) (flush : Except GErr Unit) (schemaName key : Str) :
    Storage × Except GErr Unit :=
  match mfind s.schemas schemaName with
  | none => (s, .error (.schemaNotFound schemaName))
  | some _ =>
      match mfind ((mfind s.records schemaName).getD []) key with
      | none => (s, .error (.recordNotFound key schemaName))
      | some _ =>
          let rm := (mfind s.records schemaName).getD []
          let s := { s with records := minsert s.records schemaName (merase rm key) }
          let s := updatePartialKeyIndex s schemaName key false
          (s, flush)

/-- `CreateSchema` upserts a schema definition, ensures a (possibly
empty) record map exists for it, and flushes.  The Go code assigns the
schema first and then initializes the record map when absent; the two
assignments are combined into one state here. -/
def CreateSchema (s : Storage) (flush : Except GErr Unit) (name fields : Str) :
    Storage × Except GErr Unit :=
  match mfind s.records name with
  | some _ => ({ s with schemas := minsert s.schemas name fields }, flush)
  | none => ({ s with schemas := minsert s.schemas name fields, records := minsert s.records name [] }, flush)

deriving instance DecidableEq for Except

/-- A record with the given key is present in the schema's record map
(a lookup in a missing schema map behaves like Go's nil-map lookup). -/
def hasRecord (s : Storage) (schemaName key : Str) : Prop :=
  (mfind ((mfind s.records schemaName).getD []) key).isSome = true

instance (s : Storage) (schemaName key : Str) :
    Decidable (hasRecord s schemaName key) :=
  inferInstanceAs (Decidable (_ = true))

/-- The contents of one bucket of the partial-key index (an absent
bucket reads as the empty list, like a Go nil slice). -/
def bucket (s : Storage) (schemaName pk : Str) : List Str :=
  (mfind ((mfind s.partialKeys schemaName).getD []) pk).getD []

/-- The bucket of the partial-key index with presence information:
`some []` is an empty bucket left behind by a removal, `none` a bucket
that does not exist at all. -/
def bucketOpt (s : Storage) (schemaName pk : Str) : Option (List Str) :=
  mfind ((mfind s.partialKeys schemaName).getD []) pk

/-- One storage-engine operation, for reasoning about reachable states.
Each mutating operation carries the outcome of its persistence flush. -/
inductive SOp : Type where
  | createSchema : Str → Str → Except GErr Unit → SOp
  | addRecord : Str → JsonStr → Except GErr Unit → SOp
  | deleteRecord : Str → Str → Except GErr Unit → SOp
  | rebuild : SOp
deriving DecidableEq

/-- State reached after one operation. -/
def applySOp (s : Storage) : SOp → Storage
  | .createSchema name fields flush => (CreateSchema s flush name fields).1
  | .addRecord schemaName recordData flush => (AddRecord s flush schemaName recordData).1
  | .deleteRecord schemaName key flush => (DeleteRecord s flush schemaName key).1
  | .rebuild => rebuildPartialKeyIndex s

/-- State reached after a sequence of operations. -/
def runSOps (s : Storage) (ops : List SOp) : Storage := ops.foldl applySOp s

/-- A value stored in the persistence file's records structure: either a
record blob (a string) or the JSON-marshalled schemas map stored under
the reserved entry.  The byte encoding of the schemas map is the opaque
persistence boundary, so the marshalled string is modelled by the map it
encodes (`pblob`); `pstr` strings are exactly those that do not decode
to a schemas map. -/
inductive PVal : Type where
  | pstr : Str → PVal
  | pblob : Map Str → PVal
deriving DecidableEq

/-- The records structure held in one storage file. -/
abbrev PRecMap : Type := Map (Map PVal)

/-- `SaveRecords` writes the whole records structure to the file
(happy path of the JSON store; directory creation and write errors are
outside this model). -/
def SaveRecords (_fs : Option PRecMap) (records : PRecMap) : Option PRecMap :=
  some records

/-- `LoadRecords` reads the records structure back, returning the empty
structure when the file does not exist. -/

def LoadRecords (fs : Option PRecMap) : PRecMap :=
  fs.getD []

/-- `SaveSchemas` loads the current records from the file, overwrites the
reserved `__schemas__` entry with a one-field map holding the marshalled
schema definitions under `definition`, and saves the result. -/
def SaveSchemas (fs : Option PRecMap) (schemas : Map Str) : Option PRecMap :=
  let records := LoadRecords fs
  SaveRecords fs (minsert records schemasKey [(lit "definition", PVal.pblob schemas)])

/-- `LoadSchemas` reads the records structure and decodes the reserved
entry: missing entry or missing `definition` field yield the empty
schemas map; a string that does not decode to a schemas map yields an
unmarshalling error. -/
def LoadSchemas (fs : Option PRecMap) : Except Unit (Map Str) :=
  let records := LoadRecords fs
  match mfind records schemasKey with
  | none => .ok []
  | some schemaData =>
      match mfind schemaData (lit "definition") with
      | none => .ok []
      | some (PVal.pblob schemas) => .ok schemas
      | some (PVal.pstr _) => .error ()

/-- Saving a snapshot: records first, then schemas, as the engine's
`saveToPersistent` does. -/
def saveSnapshot (fs : Option PRecMap) (records : PRecMap) (schemas : Map Str) :
    Option PRecMap :=
  SaveSchemas (SaveRecords fs records) schemas

/-- Loading a snapshot back: records, then schemas, as the engine's
`loadFromPersistent` does. -/
def loadSnapshot (fs : Option PRecMap) : PRecMap × Except Unit (Map Str) :=
  (LoadRecords fs, LoadSchemas fs)

/-- The multi-database variant of `AddRecord`, operating on the current
database's state: parse the record, stamp `created_at`/`updated_at` with
the current time (`now` abstracts `time.Now().Format(time.RFC3339)`),
marshal the stamped record back, validate the stamped document, derive
the key from it, store it, update the index and flush. -/
def AddRecordTs (s : Storage) (flush : Except GErr Unit) (now : Str)
    (schemaName : Str) (recordData : JsonStr) : Storage × Except GErr Unit :=
  match mfind s.schemas schemaName with
  | none => (s, .error (.schemaNotFound schemaName))
  | some _ =>
      match recordData.parsed with
      | none => (s, .error .invalidJson)
      | some parsedRecord =>
          let stamped :=
            minsert (minsert parsedRecord (lit "created_at") (.str now))
              (lit "updated_at") (.str now)
          let updatedRecordData : JsonStr := ⟨goMarshal stamped, some stamped⟩
          match validateRecordAgainstSchema s.schemas schemaName updatedRecordData with
          | .error e => (s, .error (.validationFailed e))
          | .ok _ =>
              let key := extractKeyFromRecord updatedRecordData.raw updatedRecordData.parsed
              let key :=
                if key = [] ∨ key = updatedRecordData.raw then fallbackKey stamped key
                else key
              if key = [] then (s, .error (.keyExtractionFailed updatedRecordData.raw))
              else
                let rm := (mfind s.records schemaName).getD []
                let s := { s with records := minsert s.records schemaName (minsert rm key updatedRecordData) }
                let s := updatePartialKeyIndex s schemaName key true
                (s, flush)

/-- Both directions of the index-consistency invariant as they actually
hold on reachable states: full characterization of buckets for every
schema other than the reserved `__schemas__` name, soundness of bucket
membership everywhere, and duplicate-free record-map keys. -/
def ConsInv (st : Storage) : Prop :=
  (∀ sn p k, ¬(sn = schemasKey) →
      (k ∈ bucket st sn p ↔ (hasRecord st sn k ∧ p = getPartialKey k)))
  ∧ (∀ p k, k ∈ bucket st schemasKey p →
      (hasRecord st schemasKey k ∧ p = getPartialKey k))
  ∧ NoDupKeys st.records

/-- Full bucket characterization for every schema, which holds on states
reached without any index rebuild. -/
def FullChar (st : Storage) : Prop :=
  (∀ sn p k, k ∈ bucket st sn p ↔ (hasRecord st sn k ∧ p = getPartialKey k))
  ∧ NoDupKeys st.records

/-- The index-consistency invariant exactly as the claim states it, for
every schema including the reserved name. -/
def consistentIndex (st : Storage) : Prop :=
  (∀ sn k, hasRecord st sn k → k ∈ bucket st sn (getPartialKey k))
  ∧ (∀ sn p k, k ∈ bucket st sn p → hasRecord st sn k)

/-- The convergence property exactly as the claim states it: after the
incremental updates, every bucket (including its presence) coincides
with the wholesale rebuild on the current record set. -/
def indexAgreesWithRebuild (st : Storage) : Prop :=
  ∀ sn p, bucketOpt st sn p = bucketOpt (rebuildPartialKeyIndex st) sn p

/-- Modelled from the claim's wording of priorities 4 and 5 (`the first
field encountered during a scan of the record whose value is textual`,
else `the name of the first field encountered`): after `id`/`name`/`key`,
scan the whole record for the first textual value, and only when no
field holds a textual value fall back to the first field's name.  Used
solely to compare the claim's words against the source. -/
def extractKeyClaimed (recordData : Str) (parsed : Option GoObj) : Str :=
  match parsed with
  | none => recordData
  | some record =>
      match mfind record (lit "id") with
      | some v => match v with | .str s => s | _ => goFormat v
      | none =>
          match mfind record (lit "name") with
          | some v => match v with | .str s => s | _ => goFormat v
          | none =>
              match mfind record (lit "key") with
              | some v => match v with | .str s => s | _ => goFormat v
              | none =>
                  match record.find?
                      (fun fv => match fv.2 with | .str _ => true | _ => false) with
                  | some fv => (match fv.2 with | .str s => s | _ => [])
                  | none =>
                      match record with
                      | (k, _) :: _ => k
                      | [] => recordData

theorem mfind_minsert {α : Type} (m : Map α) (k : Str) (v : α) (k' : Str) :
    mfind (minsert m k v) k' = if k = k' then some v else mfind m k' := by
  induction m with
  | nil => simp [minsert, mfind]
  | cons hd tl ih =>
      obtain ⟨k₀, v₀⟩ := hd
      by_cases h₀ : k₀ = k
      · subst h₀
        by_cases h₁ : k₀ = k'
        · subst h₁; simp [minsert, mfind]
        · simp [minsert, mfind, h₁]
      · by_cases h₁ : k₀ = k'
        · subst h₁
          simp [minsert, mfind, h₀, Ne.symm h₀]
        · simp [minsert, mfind, h₀, h₁, ih]

theorem mfind_minsert_self {α : Type} (m : Map α) (k : Str) (v : α) :
    mfind (minsert m k v) k = some v := by
  simp [mfind_minsert]

theorem mfind_minsert_ne {α : Type} (m : Map α) (k : Str) (v : α) (k' : Str)
    (h : k ≠ k') : mfind (minsert m k v) k' = mfind m k' := by
  simp [mfind_minsert, h]

theorem mfind_merase {α : Type} (m : Map α) (k k' : Str) :
    mfind (merase m k) k' = if k = k' then none else mfind m k' := by
  induction m with
  | nil => simp [merase, mfind]
  | cons hd tl ih =>
      obtain ⟨k₀, v₀⟩ := hd
      by_cases h₀ : k₀ = k
      · subst h₀
        by_cases h₁ : k₀ = k'
        · subst h₁; simpa [merase, mfind] using ih
        · simpa [merase, mfind, h₁] using ih
      · by_cases h₁ : k₀ = k'
        · subst h₁
          simp [merase, mfind, h₀, ih, Ne.symm h₀]
        · simp [merase, mfind, h₀, h₁, ih]

theorem mfind_isSome_iff {α : Type} (m : Map α) (k : Str) :
    (mfind m k).isSome = true ↔ ∃ v, (k, v) ∈ m := by
  induction m with
  | nil => simp [mfind]
  | cons hd tl ih =>
      obtain ⟨k₀, v₀⟩ := hd
      by_cases h₀ : k₀ = k
      · subst h₀
        simp [mfind]
      · simp only [mfind, if_neg h₀, List.mem_cons, ih]
        constructor
        · rintro ⟨v, hv⟩; exact ⟨v, Or.inr hv⟩
        · rintro ⟨v, hv | hv⟩
          · cases hv; exact absurd rfl h₀
          · exact ⟨v, hv⟩

theorem mem_of_mfind {α : Type} {m : Map α} {k : Str} {v : α}
    (h : mfind m k = some v) : (k, v) ∈ m := by
  induction m with
  | nil => simp [mfind] at h
  | cons hd tl ih =>
      obtain ⟨k₀, v₀⟩ := hd
      by_cases h₀ : k₀ = k
      · subst h₀
        simp [mfind] at h
        simp [h]
      · simp only [mfind, if_neg h₀] at h
        exact List.mem_cons_of_mem _ (ih h)

theorem mfind_of_mem_nodup {α : Type} {m : Map α} {k : Str} {v : α}
    (hnd : NoDupKeys m) (h : (k, v) ∈ m) : mfind m k = some v := by
  induction m with
  | nil => simp at h
  | cons hd tl ih =>
      obtain ⟨k₀, v₀⟩ := hd
      simp only [NoDupKeys, List.map_cons, List.nodup_cons] at hnd
      rcases List.mem_cons.mp h with h' | h'
      · cases h'
        simp [mfind]
      · have hk : k₀ ≠ k := by
          intro he
          subst he
          exact hnd.1 (List.mem_map.mpr ⟨(k₀, v), h', rfl⟩)
        simp only [mfind, if_neg hk]
        exact ih hnd.2 h'

theorem noDupKeys_nil {α : Type} : NoDupKeys ([] : Map α) := List.nodup_nil

theorem keys_minsert {α : Type} (m : Map α) (k : Str) (v : α) :
    (minsert m k v).map Prod.fst =
      if (mfind m k).isSome then m.map Prod.fst else m.map Prod.fst ++ [k] := by
  induction m with
  | nil => simp [minsert, mfind]
  | cons hd tl ih =>
      obtain ⟨k₀, v₀⟩ := hd
      by_cases h₀ : k₀ = k
      · subst h₀; simp [minsert, mfind]
      · by_cases h₁ : (mfind tl k).isSome
        · simp [minsert, mfind, h₀, ih, h₁]
        · simp [minsert, mfind, h₀, ih, h₁]

theorem keys_merase {α : Type} (m : Map α) (k : Str) :
    (merase m k).map Prod.fst = (m.map Prod.fst).filter (fun x => ¬(x = k)) := by
  induction m with
  | nil => simp [merase]
  | cons hd tl ih =>
      obtain ⟨k₀, v₀⟩ := hd
      by_cases h₀ : k₀ = k
      · subst h₀; simp [merase, ih]
      · simp [merase, h₀, ih]

theorem noDupKeys_minsert {α : Type} {m : Map α} (hnd : NoDupKeys m)
    (k : Str) (v : α) : NoDupKeys (minsert m k v) := by
  unfold NoDupKeys at *
  rw [keys_minsert]
  by_cases h : (mfind m k).isSome
  · simpa [h] using hnd
  · have hk : k ∉ m.map Prod.fst := by
      intro hc
      rcases List.mem_map.mp hc with ⟨⟨k', v'⟩, hm, he⟩
      exact h ((mfind_isSome_iff m k).mpr ⟨v', he ▸ hm⟩)
    rw [if_neg h, List.nodup_append]
    refine ⟨hnd, List.nodup_singleton k, ?_⟩
    intro x hx hx2
    rw [List.mem_singleton] at hx2
    subst hx2
    exact hk hx

theorem noDupKeys_merase {α : Type} {m : Map α} (hnd : NoDupKeys m)
    (k : Str) : NoDupKeys (merase m k) := by
  unfold NoDupKeys at *
  rw [keys_merase]
  exact hnd.filter _

theorem records_updatePartialKeyIndex (s : Storage) (schemaName fullKey : Str)
    (add : Bool) : (updatePartialKeyIndex s schemaName fullKey add).records = s.records := by
  cases add <;> rfl

theorem schemas_updatePartialKeyIndex (s : Storage) (schemaName fullKey : Str)
    (add : Bool) : (updatePartialKeyIndex s schemaName fullKey add).schemas = s.schemas := by
  cases add <;> rfl

theorem bucket_update_add (s : Storage) (schemaName fullKey sn p : Str) :
    bucket (updatePartialKeyIndex s schemaName fullKey true) sn p =
      if sn = schemaName ∧ p = getPartialKey fullKey then
        (if fullKey ∈ bucket s schemaName (getPartialKey fullKey) then
           bucket s schemaName (getPartialKey fullKey)
         else bucket s schemaName (getPartialKey fullKey) ++ [fullKey])
      else bucket s sn p := by
  by_cases hsn : sn = schemaName
  · subst hsn
    by_cases hp : p = getPartialKey fullKey
    · subst hp
      simp [updatePartialKeyIndex, bucket, mfind_minsert]
    · have hp' : getPartialKey fullKey ≠ p := fun h => hp h.symm
      simp [updatePartialKeyIndex, bucket, mfind_minsert, hp, hp']
  · have hsn' : schemaName ≠ sn := fun h => hsn h.symm
    simp [updatePartialKeyIndex, bucket, mfind_minsert, hsn, hsn']

theorem bucket_update_remove (s : Storage) (schemaName fullKey sn p : Str) :
    bucket (updatePartialKeyIndex s schemaName fullKey false) sn p =
      if sn = schemaName ∧ p = getPartialKey fullKey then
        (bucket s schemaName (getPartialKey fullKey)).filter (fun key => ¬(key = fullKey))
      else bucket s sn p := by
  by_cases hsn : sn = schemaName
  · subst hsn
    by_cases hp : p = getPartialKey fullKey
    · subst hp
      simp [updatePartialKeyIndex, bucket, mfind_minsert]
    · have hp' : getPartialKey fullKey ≠ p := fun h => hp h.symm
      simp [updatePartialKeyIndex, bucket, mfind_minsert, hp, hp']
  · have hsn' : schemaName ≠ sn := fun h => hsn h.symm
    simp [updatePartialKeyIndex, bucket, mfind_minsert, hsn, hsn']

theorem mem_bucket_update_add (s : Storage) (schemaName fullKey sn p k : Str) :
    k ∈ bucket (updatePartialKeyIndex s schemaName fullKey true) sn p ↔
      (k ∈ bucket s sn p ∨ (sn = schemaName ∧ p = getPartialKey fullKey ∧ k = fullKey)) := by
  rw [bucket_update_add]
  by_cases hc : sn = schemaName ∧ p = getPartialKey fullKey
  · obtain ⟨h1, h2⟩ := hc
    subst h1
    subst h2
    rw [if_pos (And.intro rfl rfl)]
    by_cases hin : fullKey ∈ bucket s sn (getPartialKey fullKey)
    · rw [if_pos hin]
      constructor
      · intro h
        exact Or.inl h
      · intro h
        rcases h with h | ⟨-, -, h3⟩
        · exact h
        · rw [h3]; exact hin
    · rw [if_neg hin]
      rw [List.mem_append, List.mem_singleton]
      constructor
      · intro h
        rcases h with h | h
        · exact Or.inl h
        · exact Or.inr ⟨rfl, rfl, h⟩
      · intro h
        rcases h with h | ⟨-, -, h3⟩
        · exact Or.inl h
        · exact Or.inr h3
  · rw [if_neg hc]
    constructor
    · intro h
      exact Or.inl h
    · intro h
      rcases h with h | ⟨h1, h2, -⟩
      · exact h
      · exact absurd ⟨h1, h2⟩ hc

theorem mem_bucket_update_remove (s : Storage) (schemaName fullKey sn p k : Str) :
    k ∈ bucket (updatePartialKeyIndex s schemaName fullKey false) sn p ↔
      (k ∈ bucket s sn p ∧ ¬(sn = schemaName ∧ p = getPartialKey fullKey ∧ k = fullKey)) := by
  rw [bucket_update_remove]
  by_cases hc : sn = schemaName ∧ p = getPartialKey fullKey
  · obtain ⟨h1, h2⟩ := hc
    subst h1
    subst h2
    rw [if_pos (And.intro rfl rfl)]
    rw [List.mem_filter]
    constructor
    · intro h
      have hk : ¬(k = fullKey) := by
        have := h.2
        simp only [decide_not, Bool.not_eq_true', decide_eq_false_iff_not] at this
        exact this
      exact ⟨h.1, fun hcc => hk hcc.2.2⟩
    · intro h
      refine ⟨h.1, ?_⟩
      have hk : ¬(k = fullKey) := fun hcc => h.2 ⟨rfl, rfl, hcc⟩
      simp only [decide_not, Bool.not_eq_true', decide_eq_false_iff_not]
      exact hk
  · rw [if_neg hc]
    constructor
    · intro h
      exact ⟨h, fun hcc => hc ⟨hcc.1, hcc.2.1⟩⟩
    · intro h
      exact h.1

theorem hasRecord_insert (st : Storage) (schemaName key : Str) (rd : JsonStr)
    (sn k : Str) :
    hasRecord (setRecords st (minsert st.records schemaName
        (minsert ((mfind st.records schemaName).getD []) key rd))) sn k ↔
      (if sn = schemaName then (k = key ∨ hasRecord st schemaName k)
       else hasRecord st sn k) := by
  by_cases hsn : sn = schemaName
  · subst hsn
    rw [if_pos rfl]
    unfold hasRecord setRecords
    simp only [mfind_minsert_self]
    rw [Option.getD_some, mfind_minsert]
    by_cases hk : key = k
    · subst hk
      simp
    · have hk' : ¬(k = key) := fun h => hk h.symm
      simp [hk, hk']
  · rw [if_neg hsn]
    unfold hasRecord setRecords
    have hsn' : schemaName ≠ sn := fun h => hsn h.symm
    rw [mfind_minsert_ne _ _ _ _ hsn']

theorem hasRecord_erase (st : Storage) (schemaName key : Str) (sn k : Str) :
    hasRecord (setRecords st (minsert st.records schemaName
        (merase ((mfind st.records schemaName).getD []) key))) sn k ↔
      (if sn = schemaName then (hasRecord st schemaName k ∧ ¬(k = key))
       else hasRecord st sn k) := by
  by_cases hsn : sn = schemaName
  · subst hsn
    rw [if_pos rfl]
    unfold hasRecord setRecords
    simp only [mfind_minsert_self]
    rw [Option.getD_some, mfind_merase]
    by_cases hk : key = k
    · subst hk
      simp
    · have hk' : ¬(k = key) := fun h => hk h.symm
      simp [hk, hk']
  · rw [if_neg hsn]
    unfold hasRecord setRecords
    have hsn' : schemaName ≠ sn := fun h => hsn h.symm
    rw [mfind_minsert_ne _ _ _ _ hsn']

theorem CreateSchema_partialKeys (st : Storage) (f : Except GErr Unit)
    (name fields : Str) :
    (CreateSchema st f name fields).1.partialKeys = st.partialKeys := by
  unfold CreateSchema
  cases mfind st.records name <;> rfl

theorem CreateSchema_schemas (st : Storage) (f : Except GErr Unit)
    (name fields : Str) :
    (CreateSchema st f name fields).1.schemas = minsert st.schemas name fields := by
  unfold CreateSchema
  cases mfind st.records name <;> rfl

theorem CreateSchema_flush (st : Storage) (f : Except GErr Unit)
    (name fields : Str) : (CreateSchema st f name fields).2 = f := by
  unfold CreateSchema
  cases mfind st.records name <;> rfl

theorem hasRecord_CreateSchema (st : Storage) (f : Except GErr Unit)
    (name fields sn k : Str) :
    hasRecord (CreateSchema st f name fields).1 sn k ↔ hasRecord st sn k := by
  unfold CreateSchema
  cases h : mfind st.records name with
  | some _ => exact Iff.rfl
  | none =>
      show hasRecord _ sn k ↔ _
      unfold hasRecord
      by_cases hsn : name = sn
      · subst hsn
        simp [mfind_minsert_self, h, mfind]
      · simp [mfind_minsert_ne _ _ _ _ hsn]

theorem AddRecord_state_cases (st : Storage) (f : Except GErr Unit) (sn : Str)
    (rd : JsonStr) :
    (AddRecord st f sn rd).1 = st ∨
    ∃ key, ¬(key = []) ∧
      (AddRecord st f sn rd).1 =
        updatePartialKeyIndex
          (setRecords st (minsert st.records sn
            (minsert ((mfind st.records sn).getD []) key rd))) sn key true := by
  unfold AddRecord
  repeat' split
  all_goals try exact Or.inl rfl
  all_goals dsimp only
  all_goals repeat' split
  all_goals first
    | exact Or.inl rfl
    | (exact Or.inr ⟨_, by assumption, rfl⟩)

theorem DeleteRecord_state_cases (st : Storage) (f : Except GErr Unit) (sn k : Str) :
    (DeleteRecord st f sn k).1 = st ∨
    (hasRecord st sn k ∧
      (DeleteRecord st f sn k).1 =
        updatePartialKeyIndex
          (setRecords st (minsert st.records sn
            (merase ((mfind st.records sn).getD []) k))) sn k false) := by
  unfold DeleteRecord
  cases h1 : mfind st.schemas sn with
  | none => exact Or.inl rfl
  | some d =>
      cases h2 : mfind ((mfind st.records sn).getD []) k with
      | none => exact Or.inl rfl
      | some rd => exact Or.inr ⟨by simp [hasRecord, h2], rfl⟩

theorem mem_buildSchemaIndex_aux (rm : Map JsonStr) (bidx : Map (List Str))
    (p k : Str) :
    k ∈ (mfind (rm.foldl
          (fun bidx kv =>
            let pk := getPartialKey kv.1
            minsert bidx pk ((mfind bidx pk).getD [] ++ [kv.1]))
          bidx) p).getD [] ↔
      (k ∈ (mfind bidx p).getD [] ∨ ((∃ v, (k, v) ∈ rm) ∧ p = getPartialKey k)) := by
  induction rm generalizing bidx with
  | nil => simp
  | cons hd tl ih =>
      obtain ⟨k₀, v₀⟩ := hd
      rw [List.foldl_cons]
      rw [ih]
      have hstep : k ∈ (mfind (minsert bidx (getPartialKey k₀)
            ((mfind bidx (getPartialKey k₀)).getD [] ++ [k₀])) p).getD [] ↔
          (k ∈ (mfind bidx p).getD [] ∨ (p = getPartialKey k₀ ∧ k = k₀)) := by
        rw [mfind_minsert]
        by_cases hp : getPartialKey k₀ = p
        · rw [if_pos hp, Option.getD_some, List.mem_append, List.mem_singleton]
          subst hp
          constructor
          · rintro (h | rfl)
            · exact Or.inl h
            · exact Or.inr ⟨rfl, rfl⟩
          · rintro (h | ⟨-, rfl⟩)
            · exact Or.inl h
            · exact Or.inr rfl
        · rw [if_neg hp]
          constructor
          · intro h; exact Or.inl h
          · rintro (h | ⟨h1, -⟩)
            · exact h
            · exact absurd h1.symm hp
      rw [hstep]
      constructor
      · rintro ((h | ⟨h1, h2⟩) | ⟨⟨v, hv⟩, hp⟩)
        · exact Or.inl h
        · subst h2
          exact Or.inr ⟨⟨v₀, List.mem_cons_self _ _⟩, h1.symm ▸ rfl⟩
        · exact Or.inr ⟨⟨v, List.mem_cons_of_mem _ hv⟩, hp⟩
      · rintro (h | ⟨⟨v, hv⟩, hp⟩)
        · exact Or.inl (Or.inl h)
        · rcases List.mem_cons.mp hv with hv | hv
          · obtain ⟨he1, he2⟩ := Prod.mk.injEq .. ▸ hv
            exact Or.inl (Or.inr ⟨he1 ▸ hp.symm ▸ rfl, he1⟩)
          · exact Or.inr ⟨⟨v, hv⟩, hp⟩

theorem mem_buildSchemaIndex (rm : Map JsonStr) (p k : Str) :
    k ∈ (mfind (buildSchemaIndex rm) p).getD [] ↔
      ((mfind rm k).isSome = true ∧ p = getPartialKey k) := by
  unfold buildSchemaIndex
  rw [mem_buildSchemaIndex_aux]
  rw [mfind_isSome_iff]
  simp [mfind]

theorem outer_fold_no_key (l : Map (Map JsonStr)) (acc : Map (Map (List Str)))
    (sn : Str) (h : sn ∉ l.map Prod.fst) :
    mfind (l.foldl
        (fun acc srm =>
          if srm.1 = schemasKey then acc
          else minsert acc srm.1 (buildSchemaIndex srm.2))
        acc) sn = mfind acc sn := by
  induction l generalizing acc with
  | nil => rfl
  | cons hd tl ih =>
      obtain ⟨k₀, rm₀⟩ := hd
      simp only [List.map_cons, List.mem_cons, not_or] at h
      rw [List.foldl_cons]
      rw [ih _ h.2]
      by_cases h₀ : k₀ = schemasKey
      · simp [h₀]
      · simp only [h₀, if_neg h₀]
        exact mfind_minsert_ne _ _ _ _ (fun he => h.1 he.symm)

theorem outer_fold_mfind (records : Map (Map JsonStr)) (hnd : NoDupKeys records)
    (acc : Map (Map (List Str))) (sn : Str) :
    mfind (records.foldl
        (fun acc srm =>
          if srm.1 = schemasKey then acc
          else minsert acc srm.1 (buildSchemaIndex srm.2))
        acc) sn =
      (match mfind records sn with
       | some rm => if sn = schemasKey then mfind acc sn else some (buildSchemaIndex rm)
       | none => mfind acc sn) := by
  induction records generalizing acc with
  | nil => rfl
  | cons hd tl ih =>
      obtain ⟨k₀, rm₀⟩ := hd
      simp only [NoDupKeys, List.map_cons, List.nodup_cons] at hnd
      rw [List.foldl_cons]
      by_cases h₀ : k₀ = sn
      · subst h₀
        rw [outer_fold_no_key _ _ _ hnd.1]
        simp only [mfind, if_pos rfl]
        by_cases hs : k₀ = schemasKey
        · simp [hs]
        · simp [hs, mfind_minsert_self]
      · have hfind : mfind ((k₀, rm₀) :: tl) sn = mfind tl sn := by
          simp [mfind, h₀]
        rw [ih hnd.2]
        have hacc : mfind (if k₀ = schemasKey then acc
            else minsert acc k₀ (buildSchemaIndex rm₀)) sn = mfind acc sn := by
          by_cases hs : k₀ = schemasKey
          · rw [if_pos hs]
          · rw [if_neg hs]
            exact mfind_minsert_ne _ _ _ _ h₀
        rw [hfind]
        cases mfind tl sn with
        | none => exact hacc
        | some rm =>
            by_cases hs : sn = schemasKey
            · subst hs
              simp only [eq_self_iff_true, if_true]
              exact hacc
            · simp [hs]

theorem records_rebuild (st : Storage) :
    (rebuildPartialKeyIndex st).records = st.records := rfl

theorem schemas_rebuild (st : Storage) :
    (rebuildPartialKeyIndex st).schemas = st.schemas := rfl

theorem mem_bucket_rebuild (st : Storage) (hnd : NoDupKeys st.records)
    (sn p k : Str) :
    k ∈ bucket (rebuildPartialKeyIndex st) sn p ↔
      (¬(sn = schemasKey) ∧ hasRecord st sn k ∧ p = getPartialKey k) := by
  unfold rebuildPartialKeyIndex bucket
  simp only []
  rw [outer_fold_mfind st.records hnd [] sn]
  unfold hasRecord
  cases h : mfind st.records sn with
  | none => simp [mfind]
  | some rm =>
      by_cases hs : sn = schemasKey
      · simp [hs, mfind]
      · simp [hs, mem_buildSchemaIndex]

theorem CreateSchema_records (st : Storage) (f : Except GErr Unit)
    (name fields : Str) :
    (CreateSchema st f name fields).1.records = st.records
    ∨ (CreateSchema st f name fields).1.records = minsert st.records name [] := by
  unfold CreateSchema
  cases mfind st.records name with
  | some _ => exact Or.inl rfl
  | none => exact Or.inr rfl

theorem hasRecord_updatePartialKeyIndex (s : Storage) (schemaName fullKey : Str)
    (add : Bool) (sn k : Str) :
    hasRecord (updatePartialKeyIndex s schemaName fullKey add) sn k ↔ hasRecord s sn k := by
  unfold hasRecord
  rw [records_updatePartialKeyIndex]

theorem addMutation_bucket (st : Storage) (sn key : Str) (rd : JsonStr)
    (sn' p k : Str) :
    k ∈ bucket (updatePartialKeyIndex (setRecords st (minsert st.records sn
        (minsert ((mfind st.records sn).getD []) key rd))) sn key true) sn' p ↔
      (k ∈ bucket st sn' p ∨ (sn' = sn ∧ p = getPartialKey key ∧ k = key)) :=
  mem_bucket_update_add _ _ _ _ _ _

theorem addMutation_hasRecord (st : Storage) (sn key : Str) (rd : JsonStr)
    (sn' k : Str) :
    hasRecord (updatePartialKeyIndex (setRecords st (minsert st.records sn
        (minsert ((mfind st.records sn).getD []) key rd))) sn key true) sn' k ↔
      (if sn' = sn then (k = key ∨ hasRecord st sn k) else hasRecord st sn' k) := by
  rw [hasRecord_updatePartialKeyIndex]
  exact hasRecord_insert st sn key rd sn' k

theorem deleteMutation_bucket (st : Storage) (sn key : Str) (sn' p k : Str) :
    k ∈ bucket (updatePartialKeyIndex (setRecords st (minsert st.records sn
        (merase ((mfind st.records sn).getD []) key))) sn key false) sn' p ↔
      (k ∈ bucket st sn' p ∧ ¬(sn' = sn ∧ p = getPartialKey key ∧ k = key)) :=
  mem_bucket_update_remove _ _ _ _ _ _

theorem deleteMutation_hasRecord (st : Storage) (sn key : Str) (sn' k : Str) :
    hasRecord (updatePartialKeyIndex (setRecords st (minsert st.records sn
        (merase ((mfind st.records sn).getD []) key))) sn key false) sn' k ↔
      (if sn' = sn then (hasRecord st sn k ∧ ¬(k = key)) else hasRecord st sn' k) := by
  rw [hasRecord_updatePartialKeyIndex]
  exact hasRecord_erase st sn key sn' k

theorem addMutation_records (st : Storage) (sn key : Str) (rd : JsonStr) :
    (updatePartialKeyIndex (setRecords st (minsert st.records sn
        (minsert ((mfind st.records sn).getD []) key rd))) sn key true).records =
      minsert st.records sn (minsert ((mfind st.records sn).getD []) key rd) := by
  rw [records_updatePartialKeyIndex]
  rfl

theorem deleteMutation_records (st : Storage) (sn key : Str) :
    (updatePartialKeyIndex (setRecords st (minsert st.records sn
        (merase ((mfind st.records sn).getD []) key))) sn key false).records =
      minsert st.records sn (merase ((mfind st.records sn).getD []) key) := by
  rw [records_updatePartialKeyIndex]
  rfl

theorem ConsInv_CreateSchema (st : Storage) (f : Except GErr Unit) (name fields : Str)
    (h : ConsInv st) : ConsInv (CreateSchema st f name fields).1 := by
  obtain ⟨h1, h2, h3⟩ := h
  have hbucket : ∀ sn p, bucket (CreateSchema st f name fields).1 sn p = bucket st sn p := by
    intro sn p
    unfold bucket
    rw [CreateSchema_partialKeys]
  refine ⟨?_, ?_, ?_⟩
  · intro sn p k hsn
    rw [hbucket, hasRecord_CreateSchema]
    exact h1 sn p k hsn
  · intro p k hk
    rw [hbucket] at hk
    rw [hasRecord_CreateSchema]
    exact h2 p k hk
  · rcases CreateSchema_records st f name fields with hr | hr
    · rw [hr]; exact h3
    · rw [hr]; exact noDupKeys_minsert h3 _ _

theorem FullChar_CreateSchema (st : Storage) (f : Except GErr Unit)
    (name fields : Str) (h : FullChar st) : FullChar (CreateSchema st f name fields).1 := by
  obtain ⟨h1, h3⟩ := h
  have hbucket : ∀ sn p, bucket (CreateSchema st f name fields).1 sn p = bucket st sn p := by
    intro sn p
    unfold bucket
    rw [CreateSchema_partialKeys]
  refine ⟨?_, ?_⟩
  · intro sn p k
    rw [hbucket, hasRecord_CreateSchema]
    exact h1 sn p k
  · rcases CreateSchema_records st f name fields with hr | hr
    · rw [hr]; exact h3
    · rw [hr]; exact noDupKeys_minsert h3 _ _

theorem hasRecord_rebuild (st : Storage) (sn k : Str) :
    hasRecord (rebuildPartialKeyIndex st) sn k ↔ hasRecord st sn k := by
  unfold hasRecord
  rw [records_rebuild]

theorem ConsInv_AddRecord (st : Storage) (f : Except GErr Unit) (sn : Str)
    (rd : JsonStr) (h : ConsInv st) : ConsInv (AddRecord st f sn rd).1 := by
  obtain ⟨h1, h2, h3⟩ := h
  rcases AddRecord_state_cases st f sn rd with hc | ⟨key, hkey, hc⟩
  · rw [hc]; exact ⟨h1, h2, h3⟩
  · rw [hc]
    refine ⟨?_, ?_, ?_⟩
    · intro sn' p k hsn'
      rw [addMutation_bucket, addMutation_hasRecord]
      by_cases hs : sn' = sn
      · subst hs
        rw [if_pos rfl]
        constructor
        · rintro (hb | ⟨-, hp, hk⟩)
          · obtain ⟨hr, hp⟩ := (h1 sn' p k hsn').mp hb
            exact ⟨Or.inr hr, hp⟩
          · subst hk
            exact ⟨Or.inl rfl, hp⟩
        · rintro ⟨hk | hr, hp⟩
          · subst hk
            exact Or.inr ⟨rfl, hp, rfl⟩
          · exact Or.inl ((h1 sn' p k hsn').mpr ⟨hr, hp⟩)
      · rw [if_neg hs]
        constructor
        · rintro (hb | ⟨hs', -, -⟩)
          · exact (h1 sn' p k hsn').mp hb
          · exact absurd hs' hs
        · intro hh
          exact Or.inl ((h1 sn' p k hsn').mpr hh)
    · intro p k hk
      rw [addMutation_bucket] at hk
      rw [addMutation_hasRecord]
      by_cases hs : schemasKey = sn
      · rw [if_pos hs]
        rcases hk with hb | ⟨-, hp, hkk⟩
        · obtain ⟨hr, hp⟩ := h2 p k hb
          exact ⟨Or.inr (hs ▸ hr), hp⟩
        · subst hkk
          exact ⟨Or.inl rfl, hp⟩
      · rw [if_neg hs]
        rcases hk with hb | ⟨hs', -, -⟩
        · exact h2 p k hb
        · exact absurd hs' hs
    · rw [addMutation_records]
      exact noDupKeys_minsert h3 _ _

theorem ConsInv_DeleteRecord (st : Storage) (f : Except GErr Unit) (sn k0 : Str)
    (h : ConsInv st) : ConsInv (DeleteRecord st f sn k0).1 := by
  obtain ⟨h1, h2, h3⟩ := h
  rcases DeleteRecord_state_cases st f sn k0 with hc | ⟨-, hc⟩
  · rw [hc]; exact ⟨h1, h2, h3⟩
  · rw [hc]
    refine ⟨?_, ?_, ?_⟩
    · intro sn' p k hsn'
      rw [deleteMutation_bucket, deleteMutation_hasRecord]
      by_cases hs : sn' = sn
      · subst hs
        rw [if_pos rfl]
        constructor
        · rintro ⟨hb, hne⟩
          obtain ⟨hr, hp⟩ := (h1 sn' p k hsn').mp hb
          refine ⟨⟨hr, ?_⟩, hp⟩
          intro hk
          exact hne ⟨rfl, hk ▸ hp, hk⟩
        · rintro ⟨⟨hr, hne⟩, hp⟩
          refine ⟨(h1 sn' p k hsn').mpr ⟨hr, hp⟩, ?_⟩
          rintro ⟨-, -, hk⟩
          exact hne hk
      · rw [if_neg hs]
        constructor
        · rintro ⟨hb, -⟩
          exact (h1 sn' p k hsn').mp hb
        · intro hh
          refine ⟨(h1 sn' p k hsn').mpr hh, ?_⟩
          rintro ⟨hs', -, -⟩
          exact hs hs'
    · intro p k hk
      rw [deleteMutation_bucket] at hk
      rw [deleteMutation_hasRecord]
      obtain ⟨hb, hne⟩ := hk
      obtain ⟨hr, hp⟩ := h2 p k hb
      by_cases hs : schemasKey = sn
      · rw [if_pos hs]
        refine ⟨⟨hs ▸ hr, ?_⟩, hp⟩
        intro hkk
        exact hne ⟨hs, hkk ▸ hp, hkk⟩
      · rw [if_neg hs]
        exact ⟨hr, hp⟩
    · rw [deleteMutation_records]
      exact noDupKeys_minsert h3 _ _

theorem ConsInv_rebuild (st : Storage) (h : ConsInv st) :
    ConsInv (rebuildPartialKeyIndex st) := by
  obtain ⟨h1, h2, h3⟩ := h
  refine ⟨?_, ?_, ?_⟩
  · intro sn p k hsn
    rw [mem_bucket_rebuild st h3, hasRecord_rebuild]
    constructor
    · rintro ⟨-, hr, hp⟩
      exact ⟨hr, hp⟩
    · rintro ⟨hr, hp⟩
      exact ⟨hsn, hr, hp⟩
  · intro p k hk
    rw [mem_bucket_rebuild st h3] at hk
    exact absurd rfl hk.1
  · show NoDupKeys st.records
    exact h3

theorem FullChar_AddRecord (st : Storage) (f : Except GErr Unit) (sn : Str)
    (rd : JsonStr) (h : FullChar st) : FullChar (AddRecord st f sn rd).1 := by
  obtain ⟨h1, h3⟩ := h
  rcases AddRecord_state_cases st f sn rd with hc | ⟨key, hkey, hc⟩
  · rw [hc]; exact ⟨h1, h3⟩
  · rw [hc]
    refine ⟨?_, ?_⟩
    · intro sn' p k
      rw [addMutation_bucket, addMutation_hasRecord]
      by_cases hs : sn' = sn
      · subst hs
        rw [if_pos rfl]
        constructor
        · rintro (hb | ⟨-, hp, hk⟩)
          · obtain ⟨hr, hp⟩ := (h1 sn' p k).mp hb
            exact ⟨Or.inr hr, hp⟩
          · subst hk
            exact ⟨Or.inl rfl, hp⟩
        · rintro ⟨hk | hr, hp⟩
          · subst hk
            exact Or.inr ⟨rfl, hp, rfl⟩
          · exact Or.inl ((h1 sn' p k).mpr ⟨hr, hp⟩)
      · rw [if_neg hs]
        constructor
        · rintro (hb | ⟨hs', -, -⟩)
          · exact (h1 sn' p k).mp hb
          · exact absurd hs' hs
        · intro hh
          exact Or.inl ((h1 sn' p k).mpr hh)
    · rw [addMutation_records]
      exact noDupKeys_minsert h3 _ _

theorem FullChar_DeleteRecord (st : Storage) (f : Except GErr Unit) (sn k0 : Str)
    (h : FullChar st) : FullChar (DeleteRecord st f sn k0).1 := by
  obtain ⟨h1, h3⟩ := h
  rcases DeleteRecord_state_cases st f sn k0 with hc | ⟨-, hc⟩
  · rw [hc]; exact ⟨h1, h3⟩
  · rw [hc]
    refine ⟨?_, ?_⟩
    · intro sn' p k
      rw [deleteMutation_bucket, deleteMutation_hasRecord]
      by_cases hs : sn' = sn
      · subst hs
        rw [if_pos rfl]
        constructor
        · rintro ⟨hb, hne⟩
          obtain ⟨hr, hp⟩ := (h1 sn' p k).mp hb
          refine ⟨⟨hr, ?_⟩, hp⟩
          intro hk
          exact hne ⟨rfl, hk ▸ hp, hk⟩
        · rintro ⟨⟨hr, hne⟩, hp⟩
          refine ⟨(h1 sn' p k).mpr ⟨hr, hp⟩, ?_⟩
          rintro ⟨-, -, hk⟩
          exact hne hk
      · rw [if_neg hs]
        constructor
        · rintro ⟨hb, -⟩
          exact (h1 sn' p k).mp hb
        · intro hh
          refine ⟨(h1 sn' p k).mpr hh, ?_⟩
          rintro ⟨hs', -, -⟩
          exact hs hs'
    · rw [deleteMutation_records]
      exact noDupKeys_minsert h3 _ _

theorem bucket_empty (sn p : Str) : bucket emptyStorage sn p = [] := rfl

theorem hasRecord_empty (sn k : Str) : ¬ hasRecord emptyStorage sn k := by
  simp [hasRecord, emptyStorage, mfind]

theorem ConsInv_empty : ConsInv emptyStorage := by
  refine ⟨?_, ?_, ?_⟩
  · intro sn p k _
    rw [bucket_empty]
    constructor
    · intro h
      exact absurd h (List.not_mem_nil k)
    · rintro ⟨hr, -⟩
      exact absurd hr (hasRecord_empty sn k)
  · intro p k h
    rw [bucket_empty] at h
    exact absurd h (List.not_mem_nil k)
  · exact noDupKeys_nil

theorem FullChar_empty : FullChar emptyStorage := by
  refine ⟨?_, ?_⟩
  · intro sn p k
    rw [bucket_empty]
    constructor
    · intro h
      exact absurd h (List.not_mem_nil k)
    · rintro ⟨hr, -⟩
      exact absurd hr (hasRecord_empty sn k)
  · exact noDupKeys_nil

theorem ConsInv_applySOp (st : Storage) (op : SOp) (h : ConsInv st) :
    ConsInv (applySOp st op) := by
  cases op with
  | createSchema name fields flush => exact ConsInv_CreateSchema st flush name fields h
  | addRecord sn rd flush => exact ConsInv_AddRecord st flush sn rd h
  | deleteRecord sn k flush => exact ConsInv_DeleteRecord st flush sn k h
  | rebuild => exact ConsInv_rebuild st h

theorem ConsInv_runSOps (ops : List SOp) (st : Storage) (h : ConsInv st) :
    ConsInv (runSOps st ops) := by
  induction ops generalizing st with
  | nil => exact h
  | cons op rest ih => exact ih _ (ConsInv_applySOp st op h)

theorem FullChar_applySOp (st : Storage) (op : SOp) (hop : ¬(op = SOp.rebuild))
    (h : FullChar st) : FullChar (applySOp st op) := by
  cases op with
  | createSchema name fields flush => exact FullChar_CreateSchema st flush name fields h
  | addRecord sn rd flush => exact FullChar_AddRecord st flush sn rd h
  | deleteRecord sn k flush => exact FullChar_DeleteRecord st flush sn k h
  | rebuild => exact absurd rfl hop

theorem FullChar_runSOps (ops : List SOp) (st : Storage)
    (hops : ∀ op ∈ ops, ¬(op = SOp.rebuild)) (h : FullChar st) :
    FullChar (runSOps st ops) := by
  induction ops generalizing st with
  | nil => exact h
  | cons op rest ih =>
      exact ih _ (fun o ho => hops o (List.mem_cons_of_mem _ ho))
        (FullChar_applySOp st op (hops op (List.mem_cons_self _ _)) h)

/-- C1 (amended): in every state reachable from the empty store by any
sequence of createSchema, addRecord, deleteRecord and index-rebuild
operations, every full key of a schema's record map is in the index
bucket of its 5-character prefix for every schema other than the
reserved `__schemas__` name, and conversely every key appearing in any
bucket of any schema's index exists in that schema's record map. -/
theorem c1_index_consistency (ops : List SOp) :
    (∀ sn k, ¬(sn = schemasKey) → hasRecord (runSOps emptyStorage ops) sn k →
        k ∈ bucket (runSOps emptyStorage ops) sn (getPartialKey k))
    ∧ (∀ sn p k, k ∈ bucket (runSOps emptyStorage ops) sn p →
        hasRecord (runSOps emptyStorage ops) sn k) := by
  obtain ⟨h1, h2, -⟩ := ConsInv_runSOps ops emptyStorage ConsInv_empty
  constructor
  · intro sn k hsn hr
    exact (h1 sn (getPartialKey k) k hsn).mpr ⟨hr, rfl⟩
  · intro sn p k hb
    by_cases hs : sn = schemasKey
    · subst hs
      exact (h2 p k hb).1
    · exact ((h1 sn p k hs).mp hb).1

/-- C1 (counterexample): the invariant as stated, quantifying over every
schema, fails on the code: create a schema literally named `__schemas__`,
add a record to it, then rebuild the index; the rebuild skips the
reserved name, stranding the stored key outside every bucket. -/
theorem c1_counterexample :
    ¬ consistentIndex (runSOps emptyStorage
      [SOp.createSchema schemasKey [] (Except.ok ()),
       SOp.addRecord schemasKey ⟨lit "rawX", some [(lit "id", GoValue.str (lit "x"))]⟩ (Except.ok ()),
       SOp.rebuild]) := by
  intro h
  have hb := h.1 schemasKey (lit "x") (by decide)
  revert hb
  decide

/-- C1 (witness): a concrete reachable state where the amended invariant
puts the stored key `Alice` in its bucket. -/
theorem c1_witness :
    lit "Alice" ∈ bucket (runSOps emptyStorage
      [SOp.createSchema (lit "User") (lit "name:string age:int") (Except.ok ()),
       SOp.addRecord (lit "User") ⟨lit "rawA", some [(lit "name", GoValue.str (lit "Alice")), (lit "age", GoValue.num 30)]⟩ (Except.ok ())])
      (lit "User") (getPartialKey (lit "Alice")) :=
  (c1_index_consistency
      [SOp.createSchema (lit "User") (lit "name:string age:int") (Except.ok ()),
       SOp.addRecord (lit "User") ⟨lit "rawA", some [(lit "name", GoValue.str (lit "Alice")), (lit "age", GoValue.num 30)]⟩ (Except.ok ())]).1
    (lit "User") (lit "Alice") (by decide) (by decide)

/-- C3 (amended): after any rebuild-free sequence of schema creations and
record mutations starting from the empty store, for every schema other
than the reserved `__schemas__` name the incrementally maintained index
and a wholesale rebuild on the resulting record set contain exactly the
same keys in every bucket (an empty bucket left by a removal counting
the same as an absent one). -/
theorem c3_index_convergence (ops : List SOp)
    (hops : ∀ op ∈ ops, ¬(op = SOp.rebuild)) (sn p k : Str)
    (hsn : ¬(sn = schemasKey)) :
    k ∈ bucket (runSOps emptyStorage ops) sn p ↔
      k ∈ bucket (rebuildPartialKeyIndex (runSOps emptyStorage ops)) sn p := by
  obtain ⟨h1, h3⟩ := FullChar_runSOps ops emptyStorage hops FullChar_empty
  rw [mem_bucket_rebuild _ h3, h1 sn p k]
  constructor
  · rintro ⟨hr, hp⟩
    exact ⟨hsn, hr, hp⟩
  · rintro ⟨-, hr, hp⟩
    exact ⟨hr, hp⟩

/-- C3 (counterexample): with buckets compared exactly (including their
presence), the claim fails: adding then deleting a record leaves the
incremental index with an empty bucket that the wholesale rebuild does
not produce at all. -/
theorem c3_counterexample :
    ¬ indexAgreesWithRebuild (runSOps emptyStorage
      [SOp.createSchema (lit "S") [] (Except.ok ()),
       SOp.addRecord (lit "S") ⟨lit "rawAA", some [(lit "id", GoValue.str (lit "aa"))]⟩ (Except.ok ()),
       SOp.deleteRecord (lit "S") (lit "aa") (Except.ok ())]) := by
  intro h
  have hb := h (lit "S") (lit "aa")
  revert hb
  decide

/-- C3 (witness): on a concrete rebuild-free history, the amended
convergence moves a concrete key from the incremental index into the
rebuilt one. -/
theorem c3_witness :
    lit "Alice" ∈ bucket (rebuildPartialKeyIndex (runSOps emptyStorage
      [SOp.createSchema (lit "User") (lit "name:string") (Except.ok ()),
       SOp.addRecord (lit "User") ⟨lit "rawA", some [(lit "name", GoValue.str (lit "Alice"))]⟩ (Except.ok ())]))
      (lit "User") (lit "Alice") :=
  (c3_index_convergence
      [SOp.createSchema (lit "User") (lit "name:string") (Except.ok ()),
       SOp.addRecord (lit "User") ⟨lit "rawA", some [(lit "name", GoValue.str (lit "Alice"))]⟩ (Except.ok ())]
      (by decide) (lit "User") (lit "Alice") (lit "Alice") (by decide)).mp
    (by decide)

/-- C2: `GetRecord` contract on an existing schema: an exact key match is
returned immediately (taking precedence over partial matching even when
the query is a prefix of other stored keys); otherwise a partial lookup
with exactly one matching full key returns that key's record, two or
more matches fail with an ambiguity error listing the candidates, and no
match fails with not-found. -/
theorem c2_getRecord_contract (st : Storage) (sn q d : Str)
    (hschema : mfind st.schemas sn = some d) :
    (∀ rec, mfind ((mfind st.records sn).getD []) q = some rec →
        GetRecord st sn q = .ok rec)
    ∧ (mfind ((mfind st.records sn).getD []) q = none →
        ((∀ k rec, getRecordsByPartialKey st sn q = [k] →
            mfind ((mfind st.records sn).getD []) k = some rec →
            GetRecord st sn q = .ok rec)
         ∧ (2 ≤ (getRecordsByPartialKey st sn q).length →
            GetRecord st sn q =
              .error (.ambiguousKey q sn (getRecordsByPartialKey st sn q)))
         ∧ (getRecordsByPartialKey st sn q = [] →
            GetRecord st sn q = .error (.recordNotFound q sn)))) := by
  refine ⟨?_, ?_⟩
  · intro rec hrec
    simp [GetRecord, hschema, hrec]
  · intro hnone
    refine ⟨?_, ?_, ?_⟩
    · intro k rec h1 h2
      simp [GetRecord, hschema, hnone, h1, h2]
    · intro hlen
      cases hpm : getRecordsByPartialKey st sn q with
      | nil =>
          rw [hpm] at hlen
          simp at hlen
      | cons a tl =>
          cases tl with
          | nil =>
              rw [hpm] at hlen
              simp at hlen
          | cons b tl2 =>
              simp [GetRecord, hschema, hnone, hpm]
    · intro hpm
      simp [GetRecord, hschema, hnone, hpm]

/-- C2 (witness): in the spec's own scenario the query `Ali` is ambiguous
between `Alice` and `Alicia`, while the exact key `Alice` — itself a
prefix of `Alicia` — is returned immediately. -/
theorem c2_witness :
    GetRecord (runSOps emptyStorage
      [SOp.createSchema (lit "User") (lit "name:string age:int") (Except.ok ()),
       SOp.addRecord (lit "User") ⟨lit "rawA", some [(lit "name", GoValue.str (lit "Alice")), (lit "age", GoValue.num 30)]⟩ (Except.ok ()),
       SOp.addRecord (lit "User") ⟨lit "rawB", some [(lit "name", GoValue.str (lit "Alicia")), (lit "age", GoValue.num 28)]⟩ (Except.ok ())])
      (lit "User") (lit "Ali") =
      .error (.ambiguousKey (lit "Ali") (lit "User")
        (getRecordsByPartialKey (runSOps emptyStorage
          [SOp.createSchema (lit "User") (lit "name:string age:int") (Except.ok ()),
           SOp.addRecord (lit "User") ⟨lit "rawA", some [(lit "name", GoValue.str (lit "Alice")), (lit "age", GoValue.num 30)]⟩ (Except.ok ()),
           SOp.addRecord (lit "User") ⟨lit "rawB", some [(lit "name", GoValue.str (lit "Alicia")), (lit "age", GoValue.num 28)]⟩ (Except.ok ())])
          (lit "User") (lit "Ali")))
    ∧ GetRecord (runSOps emptyStorage
      [SOp.createSchema (lit "User") (lit "name:string age:int") (Except.ok ()),
       SOp.addRecord (lit "User") ⟨lit "rawA", some [(lit "name", GoValue.str (lit "Alice")), (lit "age", GoValue.num 30)]⟩ (Except.ok ()),
       SOp.addRecord (lit "User") ⟨lit "rawB", some [(lit "name", GoValue.str (lit "Alicia")), (lit "age", GoValue.num 28)]⟩ (Except.ok ())])
      (lit "User") (lit "Alice") =
      .ok ⟨lit "rawA", some [(lit "name", GoValue.str (lit "Alice")), (lit "age", GoValue.num 30)]⟩ :=
  ⟨((c2_getRecord_contract _ (lit "User") (lit "Ali") (lit "name:string age:int")
        (by decide)).2 (by decide)).2.1 (by decide),
   (c2_getRecord_contract _ (lit "User") (lit "Alice") (lit "name:string age:int")
        (by decide)).1 _ (by decide)⟩

theorem getPartialKey_of_length_ge (k : Str) (_h : 5 ≤ k.length) :
    getPartialKey k = k.take 5 := by
  unfold getPartialKey
  by_cases hk : k.length ≤ 5
  · rw [if_pos hk]
    exact (List.take_of_length_le hk).symm
  · rw [if_neg hk]

theorem take5_eq_of_prefix {p k : Str} (hp : p <+: k) (h : 5 ≤ p.length) :
    p.take 5 = k.take 5 := by
  obtain ⟨t, rfl⟩ := hp
  rw [List.take_append_eq_append_take, Nat.sub_eq_zero_of_le h, List.take_zero,
    List.append_nil]

theorem prefix_getPartialKey {p k : Str} (hp : p <+: k) (h : p.length < 5) :
    p <+: getPartialKey k := by
  unfold getPartialKey
  by_cases hk : k.length ≤ 5
  · rw [if_pos hk]
    exact hp
  · rw [if_neg hk]
    have hpk : p = k.take p.length := List.prefix_iff_eq_take.mp hp
    have h1 : (k.take 5).take p.length = k.take p.length := by
      rw [List.take_take]
      congr 1
      exact min_eq_left (le_of_lt h)
    have h2 : p = (k.take 5).take p.length := by rw [h1]; exact hpk
    rw [h2]
    exact List.take_prefix _ _

theorem mem_scan_aux (idx : Map (List Str)) (p : Str) (acc : List Str) (k : Str) :
    k ∈ idx.foldl
        (fun ms pkeys =>
          if p.isPrefixOf pkeys.1 ∨ pkeys.1.isPrefixOf p then
            ms ++ pkeys.2.filter (fun key => p.isPrefixOf key)
          else ms)
        acc ↔
      (k ∈ acc ∨ ∃ pk keys, (pk, keys) ∈ idx ∧
        (p.isPrefixOf pk = true ∨ pk.isPrefixOf p = true) ∧
        k ∈ keys ∧ p.isPrefixOf k = true) := by
  induction idx generalizing acc with
  | nil => simp
  | cons hd tl ih =>
      obtain ⟨pk₀, keys₀⟩ := hd
      rw [List.foldl_cons, ih]
      have hstep : k ∈ (if p.isPrefixOf pk₀ ∨ pk₀.isPrefixOf p then
            acc ++ keys₀.filter (fun key => p.isPrefixOf key)
          else acc) ↔
          (k ∈ acc ∨ ((p.isPrefixOf pk₀ = true ∨ pk₀.isPrefixOf p = true) ∧
            k ∈ keys₀ ∧ p.isPrefixOf k = true)) := by
        by_cases hcond : p.isPrefixOf pk₀ ∨ pk₀.isPrefixOf p
        · rw [if_pos hcond, List.mem_append, List.mem_filter]
          constructor
          · rintro (h | ⟨h1, h2⟩)
            · exact Or.inl h
            · exact Or.inr ⟨hcond, h1, h2⟩
          · rintro (h | ⟨-, h1, h2⟩)
            · exact Or.inl h
            · exact Or.inr ⟨h1, h2⟩
        · rw [if_neg hcond]
          constructor
          · intro h
            exact Or.inl h
          · rintro (h | ⟨hc, -, -⟩)
            · exact h
            · exact absurd hc hcond
      rw [hstep]
      constructor
      · rintro ((h | ⟨hc, h1, h2⟩) | ⟨pk, keys, hmem, hc, h1, h2⟩)
        · exact Or.inl h
        · exact Or.inr ⟨pk₀, keys₀, List.mem_cons_self _ _, hc, h1, h2⟩
        · exact Or.inr ⟨pk, keys, List.mem_cons_of_mem _ hmem, hc, h1, h2⟩
      · rintro (h | ⟨pk, keys, hmem, hc, h1, h2⟩)
        · exact Or.inl (Or.inl h)
        · rcases List.mem_cons.mp hmem with hmem | hmem
          · obtain ⟨he1, he2⟩ := Prod.mk.injEq .. ▸ hmem
            subst he1
            subst he2
            exact Or.inl (Or.inr ⟨hc, h1, h2⟩)
          · exact Or.inr ⟨pk, keys, hmem, hc, h1, h2⟩

/-- C4: with an index consistent with the schema's record set, a
non-empty partial-key lookup returns exactly the stored full keys that
literally start with the query; moreover a query of length at least 5
draws its results only from the bucket named by its first 5 characters. -/
theorem c4_partial_lookup (st : Storage) (sn p : Str)
    (hne : ¬(p = []))
    (hnd : NoDupKeys ((mfind st.partialKeys sn).getD []))
    (hFwd : ∀ k, hasRecord st sn k → k ∈ bucket st sn (getPartialKey k))
    (hBwd : ∀ pk k, k ∈ bucket st sn pk → hasRecord st sn k) :
    (∀ k, k ∈ getRecordsByPartialKey st sn p ↔ (hasRecord st sn k ∧ p <+: k))
    ∧ (5 ≤ p.length → ∀ k, k ∈ getRecordsByPartialKey st sn p →
        k ∈ bucket st sn (p.take 5)) := by
  constructor
  · intro k
    unfold getRecordsByPartialKey
    rw [if_neg hne]
    by_cases hlen : 5 ≤ p.length
    · rw [if_pos hlen]
      cases hpks : mfind st.partialKeys sn with
      | none =>
          dsimp only
          constructor
          · intro h
            exact absurd h (List.not_mem_nil k)
          · rintro ⟨hr, hpk⟩
            have hb := hFwd k hr
            unfold bucket at hb
            rw [hpks] at hb
            simp [mfind] at hb
      | some idx =>
          dsimp only
          have hE : ∀ kk : Str, p <+: kk → getPartialKey kk = p.take 5 := by
            intro kk hpk
            have hk5 : 5 ≤ kk.length := le_trans hlen hpk.length_le
            rw [getPartialKey_of_length_ge kk hk5, take5_eq_of_prefix hpk hlen]
          cases hbk : mfind idx (p.take 5) with
          | none =>
              dsimp only
              constructor
              · intro h
                exact absurd h (List.not_mem_nil k)
              · rintro ⟨hr, hpk⟩
                have hb := hFwd k hr
                unfold bucket at hb
                rw [hpks, Option.getD_some, hE k hpk, hbk] at hb
                simp at hb
          | some keys =>
              dsimp only
              rw [List.mem_filter]
              constructor
              · rintro ⟨hk, hf⟩
                refine ⟨hBwd (p.take 5) k ?_, List.isPrefixOf_iff_prefix.mp hf⟩
                unfold bucket
                rw [hpks, Option.getD_some, hbk, Option.getD_some]
                exact hk
              · rintro ⟨hr, hpk⟩
                have hb := hFwd k hr
                unfold bucket at hb
                rw [hpks, Option.getD_some, hE k hpk, hbk, Option.getD_some] at hb
                exact ⟨hb, List.isPrefixOf_iff_prefix.mpr hpk⟩
    · rw [if_neg hlen]
      have hlt : p.length < 5 := Nat.lt_of_not_le hlen
      cases hpks : mfind st.partialKeys sn with
      | none =>
          constructor
          · intro h
            exact absurd h (List.not_mem_nil k)
          · rintro ⟨hr, hpk⟩
            have hb := hFwd k hr
            unfold bucket at hb
            rw [hpks] at hb
            simp [mfind] at hb
      | some idx =>
          have hndidx : NoDupKeys idx := by
            rw [hpks] at hnd
            exact hnd
          rw [mem_scan_aux]
          simp only [List.not_mem_nil, false_or]
          constructor
          · rintro ⟨pk, keys, hmem, hcond, hk, hf⟩
            have hfind : mfind idx pk = some keys := mfind_of_mem_nodup hndidx hmem
            have hb : k ∈ bucket st sn pk := by
              unfold bucket
              rw [hpks, Option.getD_some, hfind, Option.getD_some]
              exact hk
            exact ⟨hBwd pk k hb, List.isPrefixOf_iff_prefix.mp hf⟩
          · rintro ⟨hr, hpk⟩
            have hb := hFwd k hr
            unfold bucket at hb
            rw [hpks, Option.getD_some] at hb
            cases hbk : mfind idx (getPartialKey k) with
            | none =>
                rw [hbk] at hb
                simp at hb
            | some keys =>
                rw [hbk, Option.getD_some] at hb
                refine ⟨getPartialKey k, keys, mem_of_mfind hbk, ?_, hb,
                  List.isPrefixOf_iff_prefix.mpr hpk⟩
                left
                exact List.isPrefixOf_iff_prefix.mpr (prefix_getPartialKey hpk hlt)
  · intro hlen k hk
    unfold getRecordsByPartialKey at hk
    rw [if_neg hne, if_pos hlen] at hk
    cases hpks : mfind st.partialKeys sn with
    | none =>
        rw [hpks] at hk
        exact absurd hk (List.not_mem_nil k)
    | some idx =>
        rw [hpks] at hk
        dsimp only at hk
        cases hbk : mfind idx (p.take 5) with
        | none =>
            rw [hbk] at hk
            exact absurd hk (List.not_mem_nil k)
        | some keys =>
            rw [hbk] at hk
            dsimp only at hk
            unfold bucket
            rw [hpks, Option.getD_some, hbk, Option.getD_some]
            exact (List.mem_filter.mp hk).1

/-- C4 (witness): in a concrete consistent state holding `Alice`, the
short query `Ali` finds `Alice` through the bucket scan. -/
theorem c4_witness :
    lit "Alice" ∈ getRecordsByPartialKey (runSOps emptyStorage
      [SOp.createSchema (lit "User") (lit "name:string") (Except.ok ()),
       SOp.addRecord (lit "User") ⟨lit "rawA", some [(lit "id", GoValue.str (lit "Alice"))]⟩ (Except.ok ())])
      (lit "User") (lit "Ali") := by
  obtain ⟨h1, h2, h3⟩ := ConsInv_runSOps
    [SOp.createSchema (lit "User") (lit "name:string") (Except.ok ()),
     SOp.addRecord (lit "User") ⟨lit "rawA", some [(lit "id", GoValue.str (lit "Alice"))]⟩ (Except.ok ())]
    emptyStorage ConsInv_empty
  exact ((c4_partial_lookup (runSOps emptyStorage
      [SOp.createSchema (lit "User") (lit "name:string") (Except.ok ()),
       SOp.addRecord (lit "User") ⟨lit "rawA", some [(lit "id", GoValue.str (lit "Alice"))]⟩ (Except.ok ())])
      (lit "User") (lit "Ali")
      (by decide) (by decide)
      (fun k hk => (h1 (lit "User") (getPartialKey k) k (by decide)).mpr ⟨hk, rfl⟩)
      (fun pk k hb => ((h1 (lit "User") pk k (by decide)).mp hb).1)).1
      (lit "Alice")).mpr
    ⟨by decide, ⟨lit "ce", by decide⟩⟩

theorem validateFields_ok_iff (l : Map Str) (record : GoObj) :
    validateFields l record = .ok () ↔
      ∀ f t, (f, t) ∈ l → ∀ v, mfind record f = some v →
        validateFieldType v t = .ok () := by
  induction l with
  | nil => simp [validateFields]
  | cons hd tl ih =>
      obtain ⟨f₀, t₀⟩ := hd
      cases hfind : mfind record f₀ with
      | none =>
          simp only [validateFields, hfind]
          rw [ih]
          constructor
          · intro h f t hmem v hv
            rcases List.mem_cons.mp hmem with hmem | hmem
            · obtain ⟨he1, he2⟩ := Prod.mk.injEq .. ▸ hmem
              subst he1
              rw [hfind] at hv
              exact absurd hv (by simp)
            · exact h f t hmem v hv
          · intro h f t hmem v hv
            exact h f t (List.mem_cons_of_mem _ hmem) v hv
      | some v₀ =>
          cases hvt : validateFieldType v₀ t₀ with
          | error e =>
              simp only [validateFields, hfind, hvt]
              constructor
              · intro h
                exact absurd h (by simp)
              · intro h
                have := h f₀ t₀ (List.mem_cons_self _ _) v₀ hfind
                rw [hvt] at this
                exact absurd this (by simp)
          | ok u =>
              cases u
              simp only [validateFields, hfind, hvt]
              rw [ih]
              constructor
              · intro h f t hmem v hv
                rcases List.mem_cons.mp hmem with hmem | hmem
                · obtain ⟨he1, he2⟩ := Prod.mk.injEq .. ▸ hmem
                  subst he1
                  subst he2
                  rw [hfind] at hv
                  cases hv
                  exact hvt
                · exact h f t hmem v hv
              · intro h f t hmem v hv
                exact h f t (List.mem_cons_of_mem _ hmem) v hv

theorem validateFields_error_first (l : Map Str) (record : GoObj) (f : Str)
    (e : FErr) (h : validateFields l record = .error (.fieldFail f e)) :
    ∃ l1 t l2, l = l1 ++ (f, t) :: l2
      ∧ (∀ f' t', (f', t') ∈ l1 → ∀ v, mfind record f' = some v →
          validateFieldType v t' = .ok ())
      ∧ ∃ v, mfind record f = some v ∧ validateFieldType v t = .error e := by
  induction l with
  | nil => simp [validateFields] at h
  | cons hd tl ih =>
      obtain ⟨f₀, t₀⟩ := hd
      cases hfind : mfind record f₀ with
      | none =>
          rw [validateFields, hfind] at h
          obtain ⟨l1, t, l2, heq, hpass, hv⟩ := ih h
          refine ⟨(f₀, t₀) :: l1, t, l2, by rw [heq, List.cons_append], ?_, hv⟩
          intro f' t' hmem v hvv
          rcases List.mem_cons.mp hmem with hmem | hmem
          · obtain ⟨he1, he2⟩ := Prod.mk.injEq .. ▸ hmem
            subst he1
            rw [hfind] at hvv
            exact absurd hvv (by simp)
          · exact hpass f' t' hmem v hvv
      | some v₀ =>
          cases hvt : validateFieldType v₀ t₀ with
          | error e₀ =>
              simp only [validateFields, hfind, hvt] at h
              simp only [Except.error.injEq, VErr.fieldFail.injEq] at h
              obtain ⟨he1, he2⟩ := h
              subst he1
              subst he2
              exact ⟨[], t₀, tl, rfl, by simp, v₀, hfind, hvt⟩
          | ok u =>
              cases u
              simp only [validateFields, hfind, hvt] at h
              obtain ⟨l1, t, l2, heq, hpass, hv⟩ := ih h
              refine ⟨(f₀, t₀) :: l1, t, l2, by rw [heq, List.cons_append], ?_, hv⟩
              intro f' t' hmem v hvv
              rcases List.mem_cons.mp hmem with hmem | hmem
              · obtain ⟨he1, he2⟩ := Prod.mk.injEq .. ▸ hmem
                subst he1
                subst he2
                rw [hfind] at hvv
                cases hvv
                exact hvt
              · exact hpass f' t' hmem v hvv

theorem parseSchemaFields_nodup (d : Str) : NoDupKeys (parseSchemaFields d) := by
  unfold parseSchemaFields
  have hgen : ∀ (parts : List Str) (acc : Map Str), NoDupKeys acc →
      NoDupKeys (parts.foldl
        (fun fields part =>
          let part := trimStr part
          if part = [] then fields
          else
            match splitOnChar ':' part with
            | [a, b] => minsert fields (trimStr a) (trimStr b)
            | _ => fields)
        acc) := by
    intro parts
    induction parts with
    | nil => intro acc h; exact h
    | cons hd tl ihp =>
        intro acc h
        rw [List.foldl_cons]
        apply ihp
        dsimp only
        by_cases h0 : trimStr hd = []
        · rw [if_pos h0]; exact h
        · rw [if_neg h0]
          cases hsp : splitOnChar ':' (trimStr hd) with
          | nil => exact h
          | cons a rest =>
              cases rest with
              | nil => exact h
              | cons b rest2 =>
                  cases rest2 with
                  | nil => exact noDupKeys_minsert h _ _
                  | cons c rest3 => exact h
  exact hgen _ [] noDupKeys_nil

/-- C5: validation of a parsed record against an existing schema succeeds
exactly when every field present in both the parsed schema definition and
the record passes its declared type check; on failure, the reported field
is the first schema field (in schema-definition order) whose present
value mismatches; and the per-type checks are: a string field holds
exactly textual values, an integer field exactly whole numbers (a
nonzero fractional part is rejected), a float field exactly numeric
values, a boolean field exactly true/false values, and a type name
outside the recognized set accepts any value unconditionally. -/
theorem c5_validation (schemas : Map Str) (sn d : Str) (rd : JsonStr)
    (record : GoObj) (hschema : mfind schemas sn = some d)
    (hparsed : rd.parsed = some record) :
    ((validateRecordAgainstSchema schemas sn rd = .ok () ↔
        ∀ f t, mfind (parseSchemaFields d) f = some t →
          ∀ v, mfind record f = some v → validateFieldType v t = .ok ())
    ∧ (∀ f e, validateRecordAgainstSchema schemas sn rd = .error (.fieldFail f e) →
        ∃ l1 t l2, parseSchemaFields d = l1 ++ (f, t) :: l2
          ∧ (∀ f' t', (f', t') ∈ l1 → ∀ v, mfind record f' = some v →
              validateFieldType v t' = .ok ())
          ∧ ∃ v, mfind record f = some v ∧ validateFieldType v t = .error e))
    ∧ ((∀ v, validateFieldType v (lit "string") = .ok () ↔ ∃ s, v = .str s)
    ∧ (∀ v, validateFieldType v (lit "int") = .ok () ↔ ∃ q, v = .num q ∧ q.den = 1)
    ∧ (∀ v, validateFieldType v (lit "float") = .ok () ↔ ∃ q, v = .num q)
    ∧ (∀ v, validateFieldType v (lit "bool") = .ok () ↔ ∃ b, v = .bool b)
    ∧ (∀ v t, ¬(t = lit "string") → ¬(t = lit "int") → ¬(t = lit "integer") →
        ¬(t = lit "float") → ¬(t = lit "double") → ¬(t = lit "bool") →
        ¬(t = lit "boolean") → validateFieldType v t = .ok ())) := by
  have hval : validateRecordAgainstSchema schemas sn rd =
      validateFields (parseSchemaFields d) record := by
    unfold validateRecordAgainstSchema
    rw [hschema, hparsed]
  constructor
  · constructor
    · rw [hval, validateFields_ok_iff]
      constructor
      · intro h f t hft v hv
        exact h f t (mem_of_mfind hft) v hv
      · intro h f t hft v hv
        exact h f t (mfind_of_mem_nodup (parseSchemaFields_nodup d) hft) v hv
    · intro f e he
      rw [hval] at he
      exact validateFields_error_first _ record f e he
  · refine ⟨?_, ?_, ?_, ?_, ?_⟩
    · intro v
      cases v with
      | str s => simp [show validateFieldType (.str s) (lit "string") = .ok () from rfl]
      | num q => simp [show validateFieldType (.num q) (lit "string") =
            .error (.mismatch (lit "string") (.num q)) from rfl]
      | bool b => simp [show validateFieldType (.bool b) (lit "string") =
            .error (.mismatch (lit "string") (.bool b)) from rfl]
      | null => simp [show validateFieldType .null (lit "string") =
            .error (.mismatch (lit "string") .null) from rfl]
      | arrv => simp [show validateFieldType .arrv (lit "string") =
            .error (.mismatch (lit "string") .arrv) from rfl]
      | objv => simp [show validateFieldType .objv (lit "string") =
            .error (.mismatch (lit "string") .objv) from rfl]
    · intro v
      cases v with
      | num q =>
          have hq : validateFieldType (.num q) (lit "int") =
              if q.den = 1 then .ok () else .error (.notWhole q) := rfl
          by_cases hden : q.den = 1
          · simp [hq, hden]
          · simp [hq, hden]
      | str s => simp [show validateFieldType (.str s) (lit "int") =
            .error (.mismatch (lit "int") (.str s)) from rfl]
      | bool b => simp [show validateFieldType (.bool b) (lit "int") =
            .error (.mismatch (lit "int") (.bool b)) from rfl]
      | null => simp [show validateFieldType .null (lit "int") =
            .error (.mismatch (lit "int") .null) from rfl]
      | arrv => simp [show validateFieldType .arrv (lit "int") =
            .error (.mismatch (lit "int") .arrv) from rfl]
      | objv => simp [show validateFieldType .objv (lit "int") =
            .error (.mismatch (lit "int") .objv) from rfl]
    · intro v
      cases v with
      | num q => simp [show validateFieldType (.num q) (lit "float") = .ok () from rfl]
      | str s => simp [show validateFieldType (.str s) (lit "float") =
            .error (.mismatch (lit "float") (.str s)) from rfl]
      | bool b => simp [show validateFieldType (.bool b) (lit "float") =
            .error (.mismatch (lit "float") (.bool b)) from rfl]
      | null => simp [show validateFieldType .null (lit "float") =
            .error (.mismatch (lit "float") .null) from rfl]
      | arrv => simp [show validateFieldType .arrv (lit "float") =
            .error (.mismatch (lit "float") .arrv) from rfl]
      | objv => simp [show validateFieldType .objv (lit "float") =
            .error (.mismatch (lit "float") .objv) from rfl]
    · intro v
      cases v with
      | bool b => simp [show validateFieldType (.bool b) (lit "bool") = .ok () from rfl]
      | str s => simp [show validateFieldType (.str s) (lit "bool") =
            .error (.mismatch (lit "bool") (.str s)) from rfl]
      | num q => simp [show validateFieldType (.num q) (lit "bool") =
            .error (.mismatch (lit "bool") (.num q)) from rfl]
      | null => simp [show validateFieldType .null (lit "bool") =
            .error (.mismatch (lit "bool") .null) from rfl]
      | arrv => simp [show validateFieldType .arrv (lit "bool") =
            .error (.mismatch (lit "bool") .arrv) from rfl]
      | objv => simp [show validateFieldType .objv (lit "bool") =
            .error (.mismatch (lit "bool") .objv) from rfl]
    · intro v t h1 h2 h3 h4 h5 h6 h7
      unfold validateFieldType
      rw [if_neg h1]
      rw [if_neg (by rintro (h | h) <;> [exact h2 h; exact h3 h])]
      rw [if_neg (by rintro (h | h) <;> [exact h4 h; exact h5 h])]
      rw [if_neg (by rintro (h | h) <;> [exact h6 h; exact h7 h])]

/-- C5 (witness): validating `Alice/30` against `name:string age:int`
succeeds, and from the main equivalence the `age` field's int check
passes on the whole number 30. -/
theorem c5_witness :
    validateFieldType (GoValue.num 30) (lit "int") = .ok () :=
  ((c5_validation [(lit "User", lit "name:string age:int")] (lit "User")
      (lit "name:string age:int")
      ⟨lit "rawA", some [(lit "name", GoValue.str (lit "Alice")), (lit "age", GoValue.num 30)]⟩
      [(lit "name", GoValue.str (lit "Alice")), (lit "age", GoValue.num 30)]
      (by decide) (by decide)).1.1.mp (by decide)
    (lit "age") (lit "int") (by decide) (GoValue.num 30) (by decide))

/-- C6 (counterexample): on a record with no `id`/`name`/`key` whose
first field holds a number and whose second field holds the string `x`,
the code returns the first field's name `a`, while the claim's priority
4 demands the textual value `x`: the source never scans past the first
field encountered. -/
theorem c6_counterexample :
    extractKeyFromRecord (lit "r0")
        (some [(lit "a", GoValue.num 1), (lit "b", GoValue.str (lit "x"))]) = lit "a"
    ∧ extractKeyClaimed (lit "r0")
        (some [(lit "a", GoValue.num 1), (lit "b", GoValue.str (lit "x"))]) = lit "x"
    ∧ ¬(lit "a" = lit "x") :=
  ⟨by decide, by decide, by decide⟩

/-- C6 (amended): key extraction follows the priorities: raw input when
parsing fails; else the value of `id`, `name` or `key` in that order
(textual values taken as-is, other values stringified with the default
`%v` representation); else the single first field examined — its value
when textual, otherwise its name (the scan never continues past the
first field); else (no fields at all) the raw unparsed input. -/
theorem c6_key_extraction (recordData : Str) (record : GoObj) :
    (extractKeyFromRecord recordData none = recordData)
    ∧ (∀ v, mfind record (lit "id") = some v →
        extractKeyFromRecord recordData (some record) =
          (match v with | .str s => s | _ => goFormat v))
    ∧ (mfind record (lit "id") = none →
        ∀ v, mfind record (lit "name") = some v →
        extractKeyFromRecord recordData (some record) =
          (match v with | .str s => s | _ => goFormat v))
    ∧ (mfind record (lit "id") = none → mfind record (lit "name") = none →
        ∀ v, mfind record (lit "key") = some v →
        extractKeyFromRecord recordData (some record) =
          (match v with | .str s => s | _ => goFormat v))
    ∧ (mfind record (lit "id") = none → mfind record (lit "name") = none →
        mfind record (lit "key") = none →
        ∀ f v rest, record = (f, v) :: rest →
        extractKeyFromRecord recordData (some record) =
          (match v with | .str s => s | _ => f))
    ∧ (record = [] → extractKeyFromRecord recordData (some record) = recordData) := by
  refine ⟨rfl, ?_, ?_, ?_, ?_, ?_⟩
  · intro v hv
    simp only [extractKeyFromRecord, hv]
  · intro h1 v hv
    simp only [extractKeyFromRecord, h1, hv]
  · intro h1 h2 v hv
    simp only [extractKeyFromRecord, h1, h2, hv]
  · intro h1 h2 h3 f v rest hrec
    subst hrec
    simp only [extractKeyFromRecord, h1, h2, h3]
  · intro hrec
    subst hrec
    rfl

/-- C6 (witness): a record carrying `id = k1` derives the key `k1`. -/
theorem c6_witness :
    extractKeyFromRecord (lit "r1")
      (some [(lit "id", GoValue.str (lit "k1"))]) = lit "k1" :=
  (c6_key_extraction (lit "r1") [(lit "id", GoValue.str (lit "k1"))]).2.1
    (GoValue.str (lit "k1")) (by decide)

/-- C7: `DeleteRecord` is exact-match only: with a successful flush it
succeeds exactly when the schema exists and the key is literally present
in the record map; a key that is absent (even when the partial-key
lookup would resolve it to a unique stored key) is rejected with
not-found and the whole state is returned unchanged; a missing schema is
likewise rejected unchanged; and on success the flush result is
returned and the key is gone from the record map. -/
theorem c7_delete_exact_only (st : Storage) (sn q : Str) :
    ((DeleteRecord st (.ok ()) sn q).2 = .ok () ↔
      ((mfind st.schemas sn).isSome = true ∧ hasRecord st sn q))
    ∧ (∀ flush d, mfind st.schemas sn = some d → ¬ hasRecord st sn q →
        DeleteRecord st flush sn q = (st, .error (.recordNotFound q sn)))
    ∧ (∀ flush d k', mfind st.schemas sn = some d → ¬ hasRecord st sn q →
        getRecordsByPartialKey st sn q = [k'] →
        DeleteRecord st flush sn q = (st, .error (.recordNotFound q sn)))
    ∧ (∀ flush, mfind st.schemas sn = none →
        DeleteRecord st flush sn q = (st, .error (.schemaNotFound sn)))
    ∧ (∀ flush d, mfind st.schemas sn = some d → hasRecord st sn q →
        (DeleteRecord st flush sn q).2 = flush
        ∧ ¬ hasRecord (DeleteRecord st flush sn q).1 sn q) := by
  refine ⟨?_, ?_, ?_, ?_, ?_⟩
  · cases hs : mfind st.schemas sn with
    | none =>
        simp only [DeleteRecord, hs]
        constructor
        · intro h
          exact absurd h (by simp)
        · rintro ⟨h, -⟩
          simp at h
    | some d =>
        cases hr : mfind ((mfind st.records sn).getD []) q with
        | none =>
            simp only [DeleteRecord, hs, hr]
            constructor
            · intro h
              exact absurd h (by simp)
            · rintro ⟨-, h⟩
              unfold hasRecord at h
              rw [hr] at h
              simp at h
        | some rd =>
            simp only [DeleteRecord, hs, hr]
            constructor
            · intro _
              exact ⟨by simp, by simp [hasRecord, hr]⟩
            · intro _
              trivial
  · intro flush d hs hnr
    have hr : mfind ((mfind st.records sn).getD []) q = none := by
      unfold hasRecord at hnr
      cases h : mfind ((mfind st.records sn).getD []) q with
      | none => rfl
      | some rd => rw [h] at hnr; simp at hnr
    simp only [DeleteRecord, hs, hr]
  · intro flush d k' hs hnr hpart
    have hr : mfind ((mfind st.records sn).getD []) q = none := by
      unfold hasRecord at hnr
      cases h : mfind ((mfind st.records sn).getD []) q with
      | none => rfl
      | some rd => rw [h] at hnr; simp at hnr
    simp only [DeleteRecord, hs, hr]
  · intro flush hs
    simp only [DeleteRecord, hs]
  · intro flush d hs hr
    have hfind : ∃ rd, mfind ((mfind st.records sn).getD []) q = some rd := by
      unfold hasRecord at hr
      cases h : mfind ((mfind st.records sn).getD []) q with
      | none => rw [h] at hr; simp at hr
      | some rd => exact ⟨rd, rfl⟩
    obtain ⟨rd, hfind⟩ := hfind
    constructor
    · simp only [DeleteRecord, hs, hfind]
    · simp only [DeleteRecord, hs, hfind]
      show ¬ hasRecord (updatePartialKeyIndex (setRecords st (minsert st.records sn
        (merase ((mfind st.records sn).getD []) q))) sn q false) sn q
      rw [deleteMutation_hasRecord]
      simp

/-- C7 (witness): the spec's scenario — with only `Alice` stored, deleting
by the partial key `Ali` fails with not-found and changes nothing, even
though the partial-key lookup resolves `Ali` uniquely to `Alice`. -/
theorem c7_witness :
    DeleteRecord (runSOps emptyStorage
      [SOp.createSchema (lit "User") (lit "name:string") (Except.ok ()),
       SOp.addRecord (lit "User") ⟨lit "rawA", some [(lit "name", GoValue.str (lit "Alice"))]⟩ (Except.ok ())])
      (.ok ()) (lit "User") (lit "Ali") =
    (runSOps emptyStorage
      [SOp.createSchema (lit "User") (lit "name:string") (Except.ok ()),
       SOp.addRecord (lit "User") ⟨lit "rawA", some [(lit "name", GoValue.str (lit "Alice"))]⟩ (Except.ok ())],
     .error (.recordNotFound (lit "Ali") (lit "User"))) :=
  (c7_delete_exact_only (runSOps emptyStorage
      [SOp.createSchema (lit "User") (lit "name:string") (Except.ok ()),
       SOp.addRecord (lit "User") ⟨lit "rawA", some [(lit "name", GoValue.str (lit "Alice"))]⟩ (Except.ok ())])
      (lit "User") (lit "Ali")).2.2.1 (.ok ()) (lit "name:string") (lit "Alice")
    (by decide) (by decide) (by decide)

/-- C8: persistence failures do not roll back in-memory mutations: for
each mutating operation the resulting in-memory state is independent of
the flush outcome (so after a failed flush it is identical to the state
a successful call would leave), and whenever the operation reaches its
mutation it returns the flush outcome itself — a flush error is
surfaced to the caller while the mutation stays applied; operations that
fail before mutating leave the state unchanged with a flush-independent
error.  `CreateSchema` always mutates and always returns the flush
outcome. -/
theorem c8_no_rollback (st : Storage) (sn nm fl q : Str) (rd : JsonStr)
    (f f' : Except GErr Unit) :
    ((AddRecord st f sn rd).1 = (AddRecord st f' sn rd).1)
    ∧ ((AddRecord st f sn rd).2 = f ∨
        ((AddRecord st f sn rd).1 = st
         ∧ (AddRecord st f sn rd).2 = (AddRecord st f' sn rd).2))
    ∧ ((DeleteRecord st f sn q).1 = (DeleteRecord st f' sn q).1)
    ∧ ((DeleteRecord st f sn q).2 = f ∨
        ((DeleteRecord st f sn q).1 = st
         ∧ (DeleteRecord st f sn q).2 = (DeleteRecord st f' sn q).2))
    ∧ ((CreateSchema st f nm fl).1 = (CreateSchema st f' nm fl).1)
    ∧ ((CreateSchema st f nm fl).2 = f) := by
  refine ⟨?_, ?_, ?_, ?_, ?_, ?_⟩
  · unfold AddRecord
    repeat' split
    all_goals try rfl
    all_goals dsimp only
    all_goals repeat' split
    all_goals rfl
  · unfold AddRecord
    repeat' split
    all_goals try exact Or.inr ⟨rfl, rfl⟩
    all_goals dsimp only
    all_goals repeat' split
    all_goals first
      | exact Or.inl rfl
      | exact Or.inr ⟨rfl, rfl⟩
  · unfold DeleteRecord
    repeat' split
    all_goals rfl
  · unfold DeleteRecord
    repeat' split
    all_goals first
      | exact Or.inl rfl
      | exact Or.inr ⟨rfl, rfl⟩
  · unfold CreateSchema
    repeat' split
    all_goals rfl
  · unfold CreateSchema
    repeat' split
    all_goals rfl

/-- C9 (counterexample): the round trip is not the identity even on the
empty snapshot: saving records then schemas plants the reserved
`__schemas__` entry in the records structure, and `LoadRecords` hands it
back as part of the records map. -/
theorem c9_counterexample :
    ¬ (loadSnapshot (saveSnapshot none [] []) =
        (([] : PRecMap), Except.ok ([] : Map Str))) := by
  decide

/-- C9 (amended): saving a snapshot (records then schemas) and loading it
back restores the schemas map exactly and restores the records map on
every schema name other than the reserved `__schemas__` key; under that
reserved key the loaded records map additionally carries the persisted
schema definitions. -/
theorem c9_round_trip (fs0 : Option PRecMap) (records : PRecMap)
    (schemas : Map Str) :
    LoadSchemas (saveSnapshot fs0 records schemas) = .ok schemas
    ∧ (∀ sn, ¬(sn = schemasKey) →
        mfind (LoadRecords (saveSnapshot fs0 records schemas)) sn = mfind records sn)
    ∧ mfind (LoadRecords (saveSnapshot fs0 records schemas)) schemasKey =
        some [(lit "definition", PVal.pblob schemas)] := by
  have hsave : saveSnapshot fs0 records schemas =
      some (minsert records schemasKey [(lit "definition", PVal.pblob schemas)]) := rfl
  refine ⟨?_, ?_, ?_⟩
  · rw [hsave]
    unfold LoadSchemas LoadRecords
    rw [Option.getD_some]
    dsimp only
    rw [mfind_minsert_self]
    simp [mfind]
  · intro sn hsn
    rw [hsave]
    unfold LoadRecords
    rw [Option.getD_some]
    exact mfind_minsert_ne _ _ _ _ (fun h => hsn h.symm)
  · rw [hsave]
    unfold LoadRecords
    rw [Option.getD_some]
    exact mfind_minsert_self _ _ _

/-- C9 (witness): a concrete one-schema, one-record snapshot: the schemas
map comes back exactly and the `User` records entry survives the round
trip unchanged. -/
theorem c9_witness :
    LoadSchemas (saveSnapshot none
        [(lit "User", [(lit "Alice", PVal.pstr (lit "recA"))])]
        [(lit "User", lit "name:string")]) =
      .ok [(lit "User", lit "name:string")]
    ∧ mfind (LoadRecords (saveSnapshot none
        [(lit "User", [(lit "Alice", PVal.pstr (lit "recA"))])]
        [(lit "User", lit "name:string")])) (lit "User") =
      mfind [(lit "User", [(lit "Alice", PVal.pstr (lit "recA"))])] (lit "User") :=
  ⟨(c9_round_trip none
      [(lit "User", [(lit "Alice", PVal.pstr (lit "recA"))])]
      [(lit "User", lit "name:string")]).1,
   (c9_round_trip none
      [(lit "User", [(lit "Alice", PVal.pstr (lit "recA"))])]
      [(lit "User", lit "name:string")]).2.1 (lit "User") (by decide)⟩

theorem AddRecordTs_state_cases (st : Storage) (flush : Except GErr Unit)
    (now sn : Str) (rd : JsonStr) :
    (AddRecordTs st flush now sn rd).1 = st ∨
    ∃ obj key, rd.parsed = some obj ∧ ¬(key = []) ∧
      (AddRecordTs st flush now sn rd).1 =
        updatePartialKeyIndex (setRecords st (minsert st.records sn
          (minsert ((mfind st.records sn).getD []) key
            ⟨goMarshal (minsert (minsert obj (lit "created_at") (GoValue.str now))
                (lit "updated_at") (GoValue.str now)),
             some (minsert (minsert obj (lit "created_at") (GoValue.str now))
                (lit "updated_at") (GoValue.str now))⟩))) sn key true := by
  unfold AddRecordTs
  repeat' split
  all_goals try exact Or.inl rfl
  all_goals dsimp only
  all_goals repeat' split
  all_goals first
    | exact Or.inl rfl
    | exact Or.inr ⟨_, _, by assumption, by assumption, rfl⟩

/-- C10: the multi-database `AddRecord` stamps `created_at` and
`updated_at` with the call time before validating and before deriving
the key: every record the call newly stores carries both fields set to
`now`, overwriting whatever the caller supplied; a schema declaring
`created_at` as `int` makes every call fail validation (the stamped
string is what gets validated, regardless of the caller's value); and on
a record with no fields at all the derived key is the timestamp itself,
because key extraction runs on the stamped record. -/
theorem c10_timestamp_stamping (st : Storage) (flush : Except GErr Unit)
    (now sn : Str) (rd : JsonStr) :
    (∀ k v, mfind ((mfind (AddRecordTs st flush now sn rd).1.records sn).getD []) k = some v →
        ¬(mfind ((mfind st.records sn).getD []) k = some v) →
        ∃ obj, v.parsed = some obj
          ∧ mfind obj (lit "created_at") = some (.str now)
          ∧ mfind obj (lit "updated_at") = some (.str now))
    ∧ (∀ d obj, mfind st.schemas sn = some d → rd.parsed = some obj →
        mfind (parseSchemaFields d) (lit "created_at") = some (lit "int") →
        ∃ e, AddRecordTs st flush now sn rd = (st, .error (.validationFailed e)))
    ∧ (mfind ((mfind (AddRecordTs ⟨[(lit "S", [])], [(lit "S", [])], []⟩ (.ok ())
          (lit "2024") (lit "S") ⟨lit "e", some []⟩).1.records (lit "S")).getD [])
        (lit "2024")).isSome = true := by
  refine ⟨?_, ?_, by decide⟩
  · intro k v hnew hold
    rcases AddRecordTs_state_cases st flush now sn rd with hc | ⟨obj, key, hparse, hkey, hc⟩
    · rw [hc] at hnew
      exact absurd hnew hold
    · rw [hc, addMutation_records, mfind_minsert_self, Option.getD_some,
        mfind_minsert] at hnew
      by_cases hkk : key = k
      · rw [if_pos hkk] at hnew
        obtain rfl : v = ⟨goMarshal (minsert (minsert obj (lit "created_at") (GoValue.str now))
              (lit "updated_at") (GoValue.str now)),
            some (minsert (minsert obj (lit "created_at") (GoValue.str now))
              (lit "updated_at") (GoValue.str now))⟩ := by
          cases hnew
          rfl
        refine ⟨minsert (minsert obj (lit "created_at") (GoValue.str now))
            (lit "updated_at") (GoValue.str now), rfl, ?_, ?_⟩
        · rw [mfind_minsert_ne _ _ _ _ (by decide), mfind_minsert_self]
        · rw [mfind_minsert_self]
      · rw [if_neg hkk] at hnew
        exact absurd hnew hold
  · intro d obj hschema hparse hfield
    cases hv : validateRecordAgainstSchema st.schemas sn
        ⟨goMarshal (minsert (minsert obj (lit "created_at") (GoValue.str now))
            (lit "updated_at") (GoValue.str now)),
         some (minsert (minsert obj (lit "created_at") (GoValue.str now))
            (lit "updated_at") (GoValue.str now))⟩ with
    | ok u =>
        exfalso
        cases u
        have hred : validateFields (parseSchemaFields d)
            (minsert (minsert obj (lit "created_at") (GoValue.str now))
              (lit "updated_at") (GoValue.str now)) = .ok () := by
          rw [← hv]
          unfold validateRecordAgainstSchema
          rw [hschema]
        have hall := (validateFields_ok_iff _ _).mp hred
        have hca : mfind (minsert (minsert obj (lit "created_at") (GoValue.str now))
            (lit "updated_at") (GoValue.str now)) (lit "created_at") =
            some (GoValue.str now) := by
          rw [mfind_minsert_ne _ _ _ _ (by decide), mfind_minsert_self]
        have := hall (lit "created_at") (lit "int") (mem_of_mfind hfield)
          (GoValue.str now) hca
        rw [show validateFieldType (GoValue.str now) (lit "int") =
            .error (.mismatch (lit "int") (GoValue.str now)) from rfl] at this
        exact absurd this (by simp)
    | error e =>
        refine ⟨e, ?_⟩
        simp only [AddRecordTs, hschema, hparse, hv]

/-- C10 (witness): with `created_at` declared as `int`, a call supplying
a perfectly valid integer `created_at` still fails validation — the
stamped string value, not the caller's value, is what gets validated. -/
theorem c10_witness :
    ∃ e, AddRecordTs ⟨[(lit "S", [])], [(lit "S", lit "created_at:int")], []⟩
        (.ok ()) (lit "2024") (lit "S")
        ⟨lit "r9", some [(lit "created_at", GoValue.num 7)]⟩ =
      (⟨[(lit "S", [])], [(lit "S", lit "created_at:int")], []⟩,
       .error (.validationFailed e)) :=
  (c10_timestamp_stamping ⟨[(lit "S", [])], [(lit "S", lit "created_at:int")], []⟩
      (.ok ()) (lit "2024") (lit "S")
      ⟨lit "r9", some [(lit "created_at", GoValue.num 7)]⟩).2.1
    (lit "created_at:int") [(lit "created_at", GoValue.num 7)]
    (by decide) (by decide) (by decide)
